import Mathlib

/-!
Shallow embedding of the Water Sort Puzzle solver
(`watersort/game.py`, `watersort/heuristics.py`, `watersort/search.py`).

Conventions of the embedding:
* A tube is a Lean list in the same order as the Python list: index 0 is the
  bottom of the tube, the last element is the top (`src[-1]` becomes
  `src.getLast?`).
* Colors are opaque tokens compared only for equality, so the model is
  polymorphic in a color type `α` with `[DecidableEq α]`; the Python code uses
  one-character strings but never inspects them beyond equality and hashing.
* Python `raise ValueError(msg)` is modelled by `Except.error msg`.
* Python `set` objects are modelled as duplicate-free lists (`setAdd` mirrors
  `set.add`), and `dict` objects as association lists where assignment conses
  a new binding that shadows older ones (`lookup` returns the newest binding).
* `random.Random` and wall-clock timing are not modelled; no claim below
  depends on state generation or on `SearchResult.time_seconds`.
-/

namespace WaterSort

/-- `Move` from `game.py`: pouring the top stack from tube `src` into tube
`dst`. -/
structure Move where
  src : Nat
  dst : Nat
deriving DecidableEq, Repr

/-- A tube: bottom-to-top list of color units (Python `Tuple[str, ...]`). -/
abbrev Tube (α : Type) := List α

/-- A game state: the ordered sequence of tubes (Python `State`). -/
abbrev GState (α : Type) := List (Tube α)

/-- The configuration fields of `WaterSortGame.__init__` that the claims
need: `num_tubes`, `num_colors` and `capacity`.  The random generator and the
color palette are used only by state generation, which no claim is about. -/
structure WaterSortGame where
  num_tubes : Nat
  num_colors : Nat
  capacity : Nat
deriving Repr

variable {α : Type} [DecidableEq α]

/-- `WaterSortGame.is_goal_state`: every non-empty tube is exactly full and
homogeneous (`len(set(tube)) == 1` becomes `tube.dedup.length == 1`). -/
def WaterSortGame.is_goal_state (g : WaterSortGame) (s : GState α) : Bool :=
  s.all fun tube =>
    tube.isEmpty || (decide (tube.length = g.capacity) && decide (tube.dedup.length = 1))

/-- `WaterSortGame.is_valid_state`: tube count matches the configuration and
no tube exceeds capacity. -/
def WaterSortGame.is_valid_state (g : WaterSortGame) (s : GState α) : Bool :=
  decide (s.length = g.num_tubes) && s.all fun tube => decide (tube.length ≤ g.capacity)

/-- Length of the run of consecutive units of the top color at the top of a
tube (Python's `run_length` loop in `get_valid_moves`): `0` for an empty
tube. -/
def topRunLength (t : Tube α) : Nat :=
  match t.getLast? with
  | none => 0
  | some c => (t.reverse.takeWhile fun x => decide (x = c)).length

/-- `WaterSortGame.get_valid_moves`.  The Python source also computes
`run_length` and has a branch `if not dst and run_length == len(src)` whose
body is `pass`, so it filters nothing; the embedding keeps only the effective
conditions.  Iteration order (source index ascending, destination index
ascending within a source) is preserved by `List.range`. -/
def WaterSortGame.get_valid_moves (g : WaterSortGame) (s : GState α) : List Move :=
  (List.range s.length).flatMap fun src_idx =>
    if (s.getD src_idx []).isEmpty then []
    else
      (List.range s.length).filterMap fun dst_idx =>
        if src_idx = dst_idx then none
        else if (s.getD dst_idx []).length = g.capacity then none
        else if !(s.getD dst_idx []).isEmpty &&
            decide ((s.getD dst_idx []).getLast? ≠ (s.getD src_idx []).getLast?) then none
        else some ⟨src_idx, dst_idx⟩

/-- The pouring `while` loop of `apply_move`, on the reversed source tube
(top unit first, which is the order in which Python pops `src`): while the
source still has units, its top unit has color `top_color` and the
destination is not full, move one unit from the top of the source to the top
of the destination. -/
def pourRev (capacity : Nat) (top_color : α) :
    List α → Tube α → Nat → List α × Tube α × Nat
  | [], dst, poured => ([], dst, poured)
  | c :: rest, dst, poured =>
    if c = top_color ∧ dst.length < capacity then
      pourRev capacity top_color rest (dst ++ [c]) (poured + 1)
    else (c :: rest, dst, poured)

/-- The pouring loop on the source tube in its stored (bottom-first) order:
`src[-1]` is the head of `src.reverse`. -/
def pour (capacity : Nat) (top_color : α) (src dst : Tube α) (poured : Nat) :
    Tube α × Tube α × Nat :=
  let r := pourRev capacity top_color src.reverse dst poured
  (r.1.reverse, r.2.1, r.2.2)

/-- `WaterSortGame.apply_move`: legality checks in source order, then the
pouring loop; on success returns the new state and the number of units
poured.  `src[-1]` is `src.getLast?`; reading the top color through the
`match` is equivalent to Python's `top_color = src[-1]` because the empty
check has already passed. -/
def WaterSortGame.apply_move (g : WaterSortGame) (s : GState α) (m : Move) :
    Except String (GState α × Nat) :=
  if ¬(m.src < s.length ∧ m.dst < s.length) then .error "Move indices out of range"
  else if m.src = m.dst then .error "Source and destination tubes must differ"
  else
    match (s.getD m.src []).getLast? with
    | none => .error "Cannot pour from an empty tube"
    | some top_color =>
      if g.capacity ≤ (s.getD m.dst []).length then .error "Destination tube is full"
      else if !(s.getD m.dst []).isEmpty &&
          decide ((s.getD m.dst []).getLast? ≠ some top_color) then
        .error "Destination top color must match the poured color"
      else
        .ok ((s.set m.src (pour g.capacity top_color (s.getD m.src []) (s.getD m.dst []) 0).1).set
              m.dst (pour g.capacity top_color (s.getD m.src []) (s.getD m.dst []) 0).2.1,
             (pour g.capacity top_color (s.getD m.src []) (s.getD m.dst []) 0).2.2)

/-- Total number of units of color `c` across all tubes of a state. -/
def colorCount (s : GState α) (c : α) : Nat :=
  (s.map fun t => t.count c).sum

/-!  Heuristics (`heuristics.py`).  Python integers may be negative, so every
heuristic returns `Int`, with Python's `-` embedded as integer subtraction. -/

/-- The per-tube amounts of color `c` across the state, in tube order: the
lists stored in `color_distribution` by `build_entropy_heuristic` (only tubes
actually containing `c` contribute, with their unit count). -/
def colorAmounts (s : GState α) (c : α) : List Nat :=
  s.filterMap fun tube =>
    let n := tube.count c
    if n = 0 then none else some n

/-- `build_entropy_heuristic(game)`: for every color present in at least two
tubes, add `(number_of_tubes_containing_it - 1) * (total_units - max_units_in
_a_single_tube)`.  The Python dict iterates each present color once; the
embedding iterates `s.flatten.dedup`, which is the same set of colors, and
addition is commutative. -/
def entropy_heuristic (s : GState α) : Int :=
  (s.flatten.dedup.map fun c =>
    let amounts := colorAmounts s c
    if amounts.length ≤ 1 then (0 : Int)
    else ((amounts.length : Int) - 1) *
      ((amounts.sum : Int) - ((amounts.foldr max 0 : Nat) : Int))).sum

/-- The initial same-color streak at the bottom of a tube (Python's
`base_color = tube[0]` / `streak` loop in `build_completion_heuristic`). -/
def bottomStreak (t : Tube α) : Nat :=
  match t with
  | [] => 0
  | c :: _ => (t.takeWhile fun x => decide (x = c)).length

/-- `build_completion_heuristic(game)`: count the non-empty, not-complete
tubes and subtract the sum of their bottom streaks from
`incomplete_count * capacity`. -/
def completion_heuristic (g : WaterSortGame) (s : GState α) : Int :=
  let incompletes := s.filter fun tube =>
    !tube.isEmpty &&
      !(decide (tube.length = g.capacity) && decide (tube.dedup.length = 1))
  (incompletes.length : Int) * (g.capacity : Int) -
    ((incompletes.map fun t => (bottomStreak t : Int)).sum)

/-- Number of units of a tube that have a differently colored unit somewhere
above them (the `blocked_units` loop of `build_blocking_heuristic`; the last
unit is never counted because nothing is above it, and for it the `any` below
is over the empty list). -/
def blockedUnits : Tube α → Nat
  | [] => 0
  | c :: rest => (if rest.any fun u => decide (u ≠ c) then 1 else 0) + blockedUnits rest

/-- `build_blocking_heuristic(game)`: total length of mixed tubes plus twice
the number of blocked units. -/
def blocking_heuristic (s : GState α) : Int :=
  let total_mixed := ((s.filter fun t => decide (1 < t.dedup.length)).map List.length).sum
  let blocked := (s.map fun t => blockedUnits t).sum
  (total_mixed : Int) + 2 * (blocked : Int)

/-!  Search engine (`search.py`).

The Python loops are unbounded `while`/recursion; the embedding threads an
explicit fuel argument and returns `none` when fuel runs out or when a Python
exception would escape (an `apply_move` failure or a missing dict key), and
`some` for every run that actually completes.  `SearchResult.time_seconds`
(wall-clock time) is not modelled.  Each algorithm also returns its final
bookkeeping record so that theorems can talk about the visited structures of
the run. -/

/-- `SearchResult` without the wall-clock field. -/
structure SearchResult where
  success : Bool
  moves : List Move
  explored_nodes : Nat
  expanded_nodes : Nat
  max_frontier_size : Nat
  depth : Nat
deriving DecidableEq, Repr

/-- Python `set.add`: no duplicate is ever introduced. -/
def setAdd {β : Type} [DecidableEq β] (l : List β) (a : β) : List β :=
  if a ∈ l then l else a :: l

/-- Python dict lookup on an association list whose newest binding comes
first (`d[k] = v` is modelled by consing `(k, v)`). -/
def lookup {κ β : Type} [DecidableEq κ] : List (κ × β) → κ → Option β
  | [], _ => none
  | (k, v) :: rest, key => if key = k then some v else lookup rest key

/-- `SearchAlgorithms._reconstruct_moves`: follow the parent/move chain
backwards from the goal, collecting moves, and reverse at the end.  `none`
models a `KeyError` or a chain longer than the fuel (the Python loop is
unbounded). -/
def reconstruct_moves {σ : Type} [DecidableEq σ]
    (parents : List (σ × Option σ)) (moves_taken : List (σ × Option Move)) :
    Nat → σ → List Move → Option (List Move)
  | 0, _, _ => none
  | fuel + 1, current, path =>
    match lookup moves_taken current with
    | none => none
    | some none => some path.reverse
    | some (some m) =>
      match lookup parents current with
      | none => none
      | some none => some (path ++ [m]).reverse
      | some (some p) => reconstruct_moves parents moves_taken fuel p (path ++ [m])

/-- The mutable bookkeeping of `SearchAlgorithms.bfs`. -/
structure BfsSt (α : Type) where
  frontier : List (GState α)
  parents : List (GState α × Option (GState α))
  moves_taken : List (GState α × Option Move)
  visited : List (GState α)
  visited_history : List (GState α)
  expanded : Nat
  max_frontier : Nat
deriving Repr

/-- The `for move in self.game.get_valid_moves(current)` body of `bfs`. -/
def bfsExpand (g : WaterSortGame) (current : GState α) :
    List Move → BfsSt α → Option (BfsSt α)
  | [], st => some st
  | m :: ms, st =>
    match g.apply_move current m with
    | .error _ => none
    | .ok (next, _) =>
      if next ∈ st.visited then bfsExpand g current ms st
      else
        bfsExpand g current ms
          { st with
            visited := setAdd st.visited next
            visited_history := setAdd st.visited_history next
            parents := (next, some current) :: st.parents
            moves_taken := (next, some m) :: st.moves_taken
            frontier := st.frontier ++ [next] }

/-- The `while frontier` loop of `bfs`.  The deque pops from the left and
appends to the right; `expanded` is incremented before the goal check, and
`max_frontier` is updated after the expansion loop, exactly as in source. -/
def bfsLoop (g : WaterSortGame) : Nat → BfsSt α → Option (SearchResult × BfsSt α)
  | 0, _ => none
  | fuel + 1, st =>
    match st.frontier with
    | [] => some (⟨false, [], st.visited_history.length, st.expanded, st.max_frontier, 0⟩, st)
    | current :: rest =>
      let st1 : BfsSt α := { st with frontier := rest, expanded := st.expanded + 1 }
      if g.is_goal_state current then
        match reconstruct_moves st1.parents st1.moves_taken (st1.parents.length + 1) current [] with
        | none => none
        | some path =>
          some (⟨true, path, st1.visited_history.length, st1.expanded, st1.max_frontier,
                 path.length⟩, st1)
      else
        match bfsExpand g current (g.get_valid_moves current) st1 with
        | none => none
        | some st2 =>
          bfsLoop g fuel { st2 with max_frontier := max st2.max_frontier st2.frontier.length }

/-- The bookkeeping `bfs` sets up before entering its loop. -/
def bfsInit (initial_state : GState α) : BfsSt α :=
  { frontier := [initial_state]
    parents := [(initial_state, none)]
    moves_taken := [(initial_state, none)]
    visited := [initial_state]
    visited_history := [initial_state]
    expanded := 0
    max_frontier := 1 }

/-- `SearchAlgorithms.bfs`, including the early return when the initial state
is already a goal. -/
def bfs (g : WaterSortGame) (fuel : Nat) (initial_state : GState α) :
    Option (SearchResult × BfsSt α) :=
  if g.is_goal_state initial_state then
    some (⟨true, [], 1, 0, 1, 0⟩, bfsInit initial_state)
  else bfsLoop g fuel (bfsInit initial_state)

/-- The mutable bookkeeping of `SearchAlgorithms.dfs`. -/
structure DfsSt (α : Type) where
  visited : List (GState α)
  visited_history : List (GState α)
  parents : List (GState α × Option (GState α))
  moves_taken : List (GState α × Option Move)
  expanded : Nat
  max_frontier : Nat
  success_state : Option (GState α)
deriving Repr

/-- The `for move in ...` loop inside `dfs`'s `search`, with the recursive
call on a successor abstracted as the continuation `rec` (structural
recursion on the move list): skip already-visited successors, otherwise
record the edge, recurse, and on failure remove the successor from the
path-scoped visited set. -/
def dfsMoves (g : WaterSortGame)
    (rec : GState α → Nat → DfsSt α → Option (Bool × DfsSt α)) :
    GState α → Nat → List Move → DfsSt α → Option (Bool × DfsSt α)
  | _, _, [], st => some (false, st)
  | state, depth, m :: ms, st =>
    match g.apply_move state m with
    | .error _ => none
    | .ok (next, _) =>
      if next ∈ st.visited then dfsMoves g rec state depth ms st
      else
        let st1 : DfsSt α :=
          { st with
            visited := setAdd st.visited next
            parents := (next, some state) :: st.parents
            moves_taken := (next, some m) :: st.moves_taken }
        let st2 : DfsSt α :=
          { st1 with
            max_frontier := max st1.max_frontier st1.visited.length
            visited_history := setAdd st1.visited_history next }
        match rec next (depth + 1) st2 with
        | none => none
        | some (true, st3) => some (true, st3)
        | some (false, st3) =>
          dfsMoves g rec state depth ms { st3 with visited := st3.visited.erase next }

/-- The inner recursive `search(state, depth)` of `dfs`: goal test, depth
cut-off, then the move loop (structural recursion on fuel; one unit of fuel
per level of recursion depth). -/
def dfsSearch (g : WaterSortGame) (depth_limit : Option Nat) :
    Nat → GState α → Nat → DfsSt α → Option (Bool × DfsSt α)
  | 0, _, _, _ => none
  | fuel + 1, state, depth, st =>
    if g.is_goal_state state then some (true, { st with success_state := some state })
    else if (match depth_limit with | some dl => decide (dl ≤ depth) | none => false) then
      some (false, st)
    else
      dfsMoves g (dfsSearch g depth_limit fuel) state depth (g.get_valid_moves state)
        { st with expanded := st.expanded + 1 }

/-- The bookkeeping `dfs` sets up before calling `search`. -/
def dfsInit (initial_state : GState α) : DfsSt α :=
  { visited := [initial_state]
    visited_history := [initial_state]
    parents := [(initial_state, none)]
    moves_taken := [(initial_state, none)]
    expanded := 0
    max_frontier := 1
    success_state := none }

/-- `SearchAlgorithms.dfs`.  `depth_limit = none` is Python's default
`depth_limit=None` (no depth bound). -/
def dfs (g : WaterSortGame) (fuel : Nat) (initial_state : GState α)
    (depth_limit : Option Nat) : Option (SearchResult × DfsSt α) :=
  match dfsSearch g depth_limit fuel initial_state 0 (dfsInit initial_state) with
  | none => none
  | some (found, st) =>
    match found, st.success_state with
    | true, some goal =>
      match reconstruct_moves st.parents st.moves_taken (st.parents.length + 1) goal [] with
      | none => none
      | some path =>
        some (⟨true, path, st.visited_history.length, st.expanded, st.max_frontier,
               path.length⟩, st)
    | _, _ =>
      some (⟨false, [], st.visited_history.length, st.expanded, st.max_frontier, 0⟩, st)

/-- A `heapq` entry of `a_star`: `(f_score, entry_counter, state)`. -/
abbrev HeapEntry (α : Type) := Int × Nat × GState α

/-- Strict-or-equal lexicographic order on the first two heap-entry
components; entry counters are unique within a run, so `heapq` ordering never
reaches the state component. -/
def heapKeyLe (a b : HeapEntry α) : Bool :=
  decide (a.1 < b.1) || (decide (a.1 = b.1) && decide (a.2.1 ≤ b.2.1))

/-- `heapq.heappop` semantics: remove and return the least entry under the
lexicographic key.  The physical heap layout is irrelevant because every pop
of a well-formed `heapq` returns the minimum. -/
def popMin : List (HeapEntry α) → Option (HeapEntry α × List (HeapEntry α))
  | [] => none
  | x :: xs =>
    match popMin xs with
    | none => some (x, [])
    | some (m, rest) => if heapKeyLe x m then some (x, xs) else some (m, x :: rest)

/-- The mutable bookkeeping of `SearchAlgorithms.a_star`.  `visited` is the
closed set of states already popped and finalized (lazy deletion). -/
structure AStarSt (α : Type) where
  open_heap : List (HeapEntry α)
  g_cost : List (GState α × Nat)
  parents : List (GState α × Option (GState α))
  moves_taken : List (GState α × Option Move)
  visited : List (GState α)
  expanded : Nat
  entry_counter : Nat
  max_frontier : Nat
deriving Repr

/-- The successor loop of `a_star`: skip a successor unless its tentative
cost strictly improves the recorded one (`math.inf` when absent), otherwise
record cost, parent and move, and push a fresh heap entry. -/
def aStarExpand (g : WaterSortGame) (heuristic : GState α → Int)
    (current : GState α) (current_g : Nat) :
    List Move → AStarSt α → Option (AStarSt α)
  | [], st => some st
  | m :: ms, st =>
    match g.apply_move current m with
    | .error _ => none
    | .ok (next, _) =>
      let tentative_g := current_g + 1
      if (match lookup st.g_cost next with
          | some gn => decide (gn ≤ tentative_g)
          | none => false) then
        aStarExpand g heuristic current current_g ms st
      else
        let f_value : Int := (tentative_g : Int) + heuristic next
        aStarExpand g heuristic current current_g ms
          { st with
            g_cost := (next, tentative_g) :: st.g_cost
            parents := (next, some current) :: st.parents
            moves_taken := (next, some m) :: st.moves_taken
            entry_counter := st.entry_counter + 1
            open_heap := (f_value, st.entry_counter + 1, next) :: st.open_heap }

/-- The `while open_heap` loop of `a_star`: pop the least entry, drop it if
already finalized, otherwise close it, test for goal, and expand. -/
def aStarLoop (g : WaterSortGame) (heuristic : GState α → Int) :
    Nat → AStarSt α → Option (SearchResult × AStarSt α)
  | 0, _ => none
  | fuel + 1, st =>
    match popMin st.open_heap with
    | none => some (⟨false, [], st.visited.length, st.expanded, st.max_frontier, 0⟩, st)
    | some ((_, _, current), heap1) =>
      let st1 : AStarSt α := { st with open_heap := heap1 }
      if current ∈ st1.visited then aStarLoop g heuristic fuel st1
      else
        let st2 : AStarSt α := { st1 with visited := setAdd st1.visited current }
        if g.is_goal_state current then
          match reconstruct_moves st2.parents st2.moves_taken (st2.parents.length + 1)
              current [] with
          | none => none
          | some path =>
            some (⟨true, path, st2.visited.length, st2.expanded, st2.max_frontier,
                   path.length⟩, st2)
        else
          match lookup st2.g_cost current with
          | none => none
          | some current_g =>
            match aStarExpand g heuristic current current_g (g.get_valid_moves current)
                { st2 with expanded := st2.expanded + 1 } with
            | none => none
            | some st3 =>
              aStarLoop g heuristic fuel
                { st3 with max_frontier := max st3.max_frontier st3.open_heap.length }

/-- The bookkeeping `a_star` sets up before its loop: the initial state has
cost 0 and is pushed with `f = h(initial)` and entry counter 0. -/
def aStarInit (heuristic : GState α → Int) (initial_state : GState α) : AStarSt α :=
  { open_heap := [(heuristic initial_state, 0, initial_state)]
    g_cost := [(initial_state, 0)]
    parents := [(initial_state, none)]
    moves_taken := [(initial_state, none)]
    visited := []
    expanded := 0
    entry_counter := 0
    max_frontier := 1 }

/-- `SearchAlgorithms.a_star`. -/
def a_star (g : WaterSortGame) (heuristic : GState α → Int) (fuel : Nat)
    (initial_state : GState α) : Option (SearchResult × AStarSt α) :=
  aStarLoop g heuristic fuel (aStarInit heuristic initial_state)

/-- Minimum on thresholds where `none` models `math.inf`. -/
def infMin : Option Int → Option Int → Option Int
  | none, b => b
  | some x, none => some x
  | some x, some y => some (min x y)

/-- The mutable bookkeeping of `SearchAlgorithms.ida_star`: the counters and
the `global_visited` set survive across threshold iterations, `visited` is
the path-scoped set of the current iteration, and `path` is the shared move
stack. -/
structure IdaSt (α : Type) where
  expanded : Nat
  max_frontier : Nat
  global_visited : List (GState α)
  visited : List (GState α)
  path : List Move
deriving Repr

/-- The `for move in ...` loop inside `ida_star`'s `search`, with the
recursive call abstracted as the continuation `rec`, accumulating the minimum
exceeded threshold; on a failed recursive call the move is popped from the
path and the successor removed from the path-scoped visited set. -/
def idaMoves (g : WaterSortGame)
    (rec : GState α → Nat → Int → IdaSt α → Option (Bool × Option Int × IdaSt α)) :
    GState α → Nat → Int → List Move → Option Int → IdaSt α →
    Option (Bool × Option Int × IdaSt α)
  | _, _, _, [], minT, st => some (false, minT, st)
  | state, gg, threshold, m :: ms, minT, st =>
    match g.apply_move state m with
    | .error _ => none
    | .ok (next, _) =>
      if next ∈ st.visited then idaMoves g rec state gg threshold ms minT st
      else
        let visited1 := setAdd st.visited next
        let st1 : IdaSt α :=
          { st with
            visited := visited1
            global_visited := setAdd st.global_visited next
            max_frontier := max st.max_frontier visited1.length
            path := st.path ++ [m] }
        match rec next (gg + 1) threshold st1 with
        | none => none
        | some (true, tt, st2) => some (true, tt, st2)
        | some (false, tt, st2) =>
          idaMoves g rec state gg threshold ms (infMin minT tt)
            { st2 with path := st2.path.dropLast, visited := st2.visited.erase next }

/-- The inner recursive `search` of `ida_star`: threshold cut, goal test,
depth cut (`math.inf` result), then the move loop with `min_threshold`
accumulation (structural recursion on fuel; one unit of fuel per level of
recursion depth). -/
def idaSearch (g : WaterSortGame) (heuristic : GState α → Int) (max_depth : Nat) :
    Nat → GState α → Nat → Int → IdaSt α → Option (Bool × Option Int × IdaSt α)
  | 0, _, _, _, _ => none
  | fuel + 1, state, gg, threshold, st =>
    let f : Int := (gg : Int) + heuristic state
    if threshold < f then some (false, some f, st)
    else if g.is_goal_state state then some (true, some (gg : Int), st)
    else if max_depth ≤ gg then some (false, none, st)
    else
      idaMoves g (idaSearch g heuristic max_depth fuel) state gg threshold
        (g.get_valid_moves state) none { st with expanded := st.expanded + 1 }

/-- The `while True` threshold loop of `ida_star`: each iteration restarts
the path-scoped visited set at `{initial_state}` and either succeeds, fails
with an infinite next threshold, or widens the threshold. -/
def idaLoop (g : WaterSortGame) (heuristic : GState α → Int) (max_depth : Nat) :
    Nat → Nat → GState α → Int → IdaSt α → Option (SearchResult × IdaSt α)
  | 0, _, _, _, _ => none
  | outer + 1, innerFuel, initial_state, threshold, st =>
    let st0 : IdaSt α := { st with visited := [initial_state] }
    match idaSearch g heuristic max_depth innerFuel initial_state 0 threshold st0 with
    | none => none
    | some (true, _, st1) =>
      some (⟨true, st1.path, st1.global_visited.length, st1.expanded, st1.max_frontier,
             st1.path.length⟩, st1)
    | some (false, none, st1) =>
      some (⟨false, [], st1.global_visited.length, st1.expanded, st1.max_frontier, 0⟩, st1)
    | some (false, some t2, st1) =>
      idaLoop g heuristic max_depth outer innerFuel initial_state t2 st1

/-- `SearchAlgorithms.ida_star` (Python default `max_depth = 200`): the first
threshold is `heuristic(initial_state)`. -/
def ida_star (g : WaterSortGame) (heuristic : GState α → Int) (outerFuel innerFuel : Nat)
    (initial_state : GState α) (max_depth : Nat) : Option (SearchResult × IdaSt α) :=
  idaLoop g heuristic max_depth outerFuel innerFuel initial_state
    (heuristic initial_state)
    { expanded := 0
      max_frontier := 1
      global_visited := [initial_state]
      visited := []
      path := [] }

/-!  Derived notions used only by the theorems below (not part of the Python
source): replaying a move list and reachability. -/

/-- Apply the moves of a list in order with `apply_move`; `none` if any
application fails. -/
def replay (g : WaterSortGame) : GState α → List Move → Option (GState α)
  | s, [] => some s
  | s, m :: ms =>
    match g.apply_move s m with
    | .error _ => none
    | .ok (s2, _) => replay g s2 ms

/-- `t` is reachable from `s` by some sequence of successful moves. -/
def Reachable (g : WaterSortGame) (s t : GState α) : Prop :=
  ∃ l : List Move, replay g s l = some t

/-- The mutually illegal situations of `apply_move` on `(s, m)`, matching the
claim: an index out of range, source equal to destination, empty source, full
destination, or a non-empty destination whose top color differs from the
source's top color. -/
def IllegalCond (g : WaterSortGame) (s : GState α) (m : Move) : Prop :=
  ¬(m.src < s.length ∧ m.dst < s.length) ∨ m.src = m.dst ∨
    s.getD m.src [] = [] ∨ (s.getD m.dst []).length = g.capacity ∨
    (s.getD m.dst [] ≠ [] ∧ (s.getD m.dst []).getLast? ≠ (s.getD m.src []).getLast?)

/-- Lexicographic order on moves: source index ascending, then destination
index ascending — the enumeration order of `get_valid_moves`. -/
def MoveLex (a b : Move) : Prop :=
  a.src < b.src ∨ (a.src = b.src ∧ a.dst < b.dst)

/-- The parent/move chain recorded for a state by the bookkeeping maps, with
its move list and the list of states it passes through (ending at the state
itself): `Chain P M x l ns` says following `moves_taken`/`parents` backwards
from `x` reaches an entry with no recorded move, and that `l` (in forward
order) and `ns` are the moves and states along the way. -/
inductive Chain (parents : List (GState α × Option (GState α)))
    (moves_taken : List (GState α × Option Move)) :
    GState α → List Move → List (GState α) → Prop
  | base (x : GState α) :
      lookup moves_taken x = some none → Chain parents moves_taken x [] [x]
  | step (x p : GState α) (m : Move) (l : List Move) (ns : List (GState α)) :
      lookup moves_taken x = some (some m) →
      lookup parents x = some (some p) →
      Chain parents moves_taken p l ns →
      Chain parents moves_taken x (l ++ [m]) (ns ++ [x])

/-- A state is well-recorded in the bookkeeping maps: it has a parent/move
chain that replays from `init` to it, whose length is below the map size
(so reconstruction fuel suffices) and whose states all lie in `visited`. -/
def GoodRec (g : WaterSortGame) (init : GState α)
    (P : List (GState α × Option (GState α))) (M : List (GState α × Option Move))
    (visited : List (GState α)) (x : GState α) : Prop :=
  ∃ l ns, Chain P M x l ns ∧ replay g init l = some x ∧ l.length + 1 ≤ P.length ∧
    ∀ n ∈ ns, n ∈ visited

/-- The optimality invariant of the `bfs` loop: the frontier lies in the
visited set, the visited set holds the initial state and only well-recorded
states whose recorded chains are shortest paths, the frontier is sorted by
chain length with all lengths within one of each other, and every visited
state off the frontier is fully processed (not a goal, all successors
visited). -/
def BfsOpt (g : WaterSortGame) (init : GState α) (st : BfsSt α) : Prop :=
  (∀ x ∈ st.frontier, x ∈ st.visited) ∧
  init ∈ st.visited ∧
  (∀ x ∈ st.visited, GoodRec g init st.parents st.moves_taken st.visited x) ∧
  (∀ x ∈ st.visited, ∀ lx nsx, Chain st.parents st.moves_taken x lx nsx →
    ∀ l2, replay g init l2 = some x → lx.length ≤ l2.length) ∧
  List.Pairwise (fun a b => ∀ la nsa lb nsb, Chain st.parents st.moves_taken a la nsa →
    Chain st.parents st.moves_taken b lb nsb → la.length ≤ lb.length) st.frontier ∧
  (∀ a ∈ st.frontier, ∀ b ∈ st.frontier, ∀ la nsa lb nsb,
    Chain st.parents st.moves_taken a la nsa →
    Chain st.parents st.moves_taken b lb nsb → lb.length ≤ la.length + 1) ∧
  (∀ u ∈ st.visited, u ∉ st.frontier → g.is_goal_state u = false ∧
    ∀ m y p, g.apply_move u m = .ok (y, p) → y ∈ st.visited)

/-- The local bookkeeping invariant of `a_star`: every state with a recorded
cost is either the initial state at cost 0, or carries a recorded move from a
recorded parent of strictly smaller cost; the initial state is recorded at 0;
every heap entry's state has a recorded cost; and the two parent/move maps
grow in lockstep.  Costs strictly decrease along parent pointers, so chains
terminate even though `a_star` overwrites entries when it finds cheaper
paths. -/
def AStarInv (g : WaterSortGame) (init : GState α) (st : AStarSt α) : Prop :=
  (∀ x gx, lookup st.g_cost x = some gx →
    (x = init ∧ gx = 0 ∧ lookup st.moves_taken x = some none) ∨
    (∃ p m gp np, lookup st.moves_taken x = some (some m) ∧
      lookup st.parents x = some (some p) ∧ lookup st.g_cost p = some gp ∧
      gp + 1 ≤ gx ∧ g.apply_move p m = .ok (x, np))) ∧
  lookup st.g_cost init = some 0 ∧
  (∀ e ∈ st.open_heap, ∃ gx, lookup st.g_cost e.2.2 = some gx) ∧
  st.parents.length = st.moves_taken.length

end WaterSort

namespace WaterSort

/-! # Theorems -/

variable {α : Type} [DecidableEq α]

/-- The first `k` elements of a list are all `c` whenever `k` does not exceed
the length of the `(· = c)`-takeWhile prefix. -/
theorem take_eq_replicate_of_le_takeWhile (c : α) :
    ∀ (l : List α) (k : Nat),
      k ≤ (l.takeWhile fun x => decide (x = c)).length → l.take k = List.replicate k c := by
  intro l
  induction l with
  | nil =>
    intro k hk
    simp only [List.takeWhile_nil, List.length_nil, Nat.le_zero] at hk
    simp [hk]
  | cons x rest ih =>
    intro k hk
    cases k with
    | zero => simp
    | succ k =>
      rw [List.takeWhile_cons] at hk
      by_cases hx : x = c
      · subst hx
        rw [if_pos (by simp), List.length_cons, Nat.succ_le_succ_iff] at hk
        simp [List.take_succ_cons, ih k hk, List.replicate_succ]
      · simp [hx] at hk

/-- Closed form of the pouring loop on the reversed source: it transfers
exactly `min (run of c at the head) (remaining capacity)` units. -/
theorem pourRev_spec (cap : Nat) (c : α) :
    ∀ (l : List α) (dst : Tube α) (p : Nat),
      pourRev cap c l dst p =
        (l.drop (min (l.takeWhile fun x => decide (x = c)).length (cap - dst.length)),
         dst ++ List.replicate
           (min (l.takeWhile fun x => decide (x = c)).length (cap - dst.length)) c,
         p + min (l.takeWhile fun x => decide (x = c)).length (cap - dst.length)) := by
  intro l
  induction l with
  | nil => intro dst p; simp [pourRev]
  | cons x rest ih =>
    intro dst p
    by_cases hx : (x = c ∧ dst.length < cap)
    · obtain ⟨hxc, hlt⟩ := hx
      subst hxc
      have hcap : cap - dst.length = (cap - (dst.length + 1)) + 1 := by omega
      rw [pourRev, if_pos ⟨rfl, hlt⟩, ih (dst ++ [x]) (p + 1)]
      rw [List.takeWhile_cons, if_pos (by simp), List.length_cons]
      rw [List.length_append, List.length_cons, List.length_nil, Nat.add_zero, hcap,
        Nat.succ_min_succ]
      refine congrArg₂ _ ?_ (congrArg₂ _ ?_ ?_)
      · rw [List.drop_succ_cons]
      · rw [List.append_assoc]
        exact congrArg _ (List.replicate_succ x _).symm
      · omega
    · rw [pourRev, if_neg hx]
      have hzero :
          min ((x :: rest).takeWhile fun y => decide (y = c)).length (cap - dst.length) = 0 := by
        rw [List.takeWhile_cons]
        by_cases hxc : x = c
        · have hge : ¬ dst.length < cap := fun hlt => hx ⟨hxc, hlt⟩
          have : cap - dst.length = 0 := by omega
          omega
        · rw [if_neg (by simp [hxc])]
          simp
      rw [hzero]
      simp

/-- `topRunLength` through a known top color. -/
theorem topRunLength_eq {src : Tube α} {c : α} (hc : src.getLast? = some c) :
    topRunLength src = (src.reverse.takeWhile fun x => decide (x = c)).length := by
  unfold topRunLength
  rw [hc]

/-- The top run is non-empty when the tube is. -/
theorem topRunLength_pos {src : Tube α} {c : α} (hc : src.getLast? = some c) :
    1 ≤ topRunLength src := by
  rw [topRunLength_eq hc]
  have hrev : src.reverse.head? = some c := by rw [List.head?_reverse]; exact hc
  cases hr : src.reverse with
  | nil => rw [hr] at hrev; simp at hrev
  | cons y ys =>
    rw [hr] at hrev
    simp only [List.head?_cons, Option.some_inj] at hrev
    rw [List.takeWhile_cons, if_pos (by simp [hrev])]
    simp

/-- The run bound by remaining capacity never exceeds the source length. -/
theorem pourCount_le_length {src : Tube α} {c : α} (hc : src.getLast? = some c)
    (cap n : Nat) : min (topRunLength src) (cap - n) ≤ src.length := by
  have h1 : (src.reverse.takeWhile fun x => decide (x = c)).length ≤ src.reverse.length :=
    (List.takeWhile_sublist _).length_le
  rw [List.length_reverse] at h1
  calc min (topRunLength src) (cap - n) ≤ topRunLength src := Nat.min_le_left _ _
    _ ≤ src.length := by rw [topRunLength_eq hc]; exact h1

/-- Closed form of `pour`: with `k = min (topRunLength src) (cap - dst.length)`
the loop removes the `k` top units of the source (all of color `c`) and
appends `k` units of `c` to the destination, reporting `k` as poured. -/
theorem pour_spec (cap : Nat) (c : α) (src dst : Tube α) (hc : src.getLast? = some c) :
    pour cap c src dst 0 =
      (src.take (src.length - min (topRunLength src) (cap - dst.length)),
       dst ++ List.replicate (min (topRunLength src) (cap - dst.length)) c,
       min (topRunLength src) (cap - dst.length)) := by
  have hk_le : min (topRunLength src) (cap - dst.length) ≤ src.length :=
    pourCount_le_length hc cap dst.length
  unfold pour
  rw [pourRev_spec]
  rw [← topRunLength_eq hc]
  refine congrArg₂ _ ?_ (congrArg₂ _ rfl ?_)
  · have := @List.reverse_take α src (src.length - min (topRunLength src) (cap - dst.length))
    have hsub : src.length - (src.length - min (topRunLength src) (cap - dst.length)) =
        min (topRunLength src) (cap - dst.length) := by omega
    rw [hsub] at this
    rw [← this, List.reverse_reverse]
  · simp

/-- The source splits as kept prefix plus a block of `k` units of its top
color: the units removed by the pour are all of color `c`. -/
theorem pour_src_decomp (cap : Nat) (c : α) (src : Tube α) (n : Nat)
    (hc : src.getLast? = some c) :
    src = src.take (src.length - min (topRunLength src) (cap - n)) ++
      List.replicate (min (topRunLength src) (cap - n)) c := by
  set k := min (topRunLength src) (cap - n) with hk
  have hk_le : k ≤ src.length := pourCount_le_length hc cap n
  have hk_tw : k ≤ (src.reverse.takeWhile fun x => decide (x = c)).length := by
    rw [hk, ← topRunLength_eq hc]; exact Nat.min_le_left _ _
  have htake : src.reverse.take k = List.replicate k c :=
    take_eq_replicate_of_le_takeWhile c src.reverse k hk_tw
  have hsplit : src.reverse.take k ++ src.reverse.drop k = src.reverse :=
    List.take_append_drop k src.reverse
  have hdrop : (src.reverse.drop k).reverse = src.take (src.length - k) := by
    have := @List.reverse_take α src (src.length - k)
    have hsub : src.length - (src.length - k) = k := by omega
    rw [hsub] at this
    rw [← this, List.reverse_reverse]
  calc src = src.reverse.reverse := (List.reverse_reverse src).symm
    _ = (src.reverse.take k ++ src.reverse.drop k).reverse := by rw [hsplit]
    _ = (src.reverse.drop k).reverse ++ (src.reverse.take k).reverse := by
        rw [List.reverse_append]
    _ = src.take (src.length - k) ++ List.replicate k c := by
        rw [hdrop, htake, List.reverse_replicate]



/-- Complete characterization of a successful `apply_move`: the guards all
pass, the poured count is the top run bounded by remaining capacity, and the
new state is the two-tube update. -/
theorem apply_move_eq_ok {g : WaterSortGame} {s : GState α} {m : Move} {s2 : GState α}
    {p : Nat} :
    g.apply_move s m = .ok (s2, p) ↔
      ∃ c, (m.src < s.length ∧ m.dst < s.length) ∧ m.src ≠ m.dst ∧
        (s.getD m.src []).getLast? = some c ∧
        (s.getD m.dst []).length < g.capacity ∧
        (s.getD m.dst [] = [] ∨ (s.getD m.dst []).getLast? = some c) ∧
        p = min (topRunLength (s.getD m.src [])) (g.capacity - (s.getD m.dst []).length) ∧
        s2 = (s.set m.src ((s.getD m.src []).take ((s.getD m.src []).length - p))).set m.dst
          (s.getD m.dst [] ++ List.replicate p c) := by
  unfold WaterSortGame.apply_move
  constructor
  · intro h
    split at h
    · simp at h
    · split at h
      · simp at h
      · next h1 h2 =>
        push_neg at h1
        split at h
        · simp at h
        · next c0 hsrc =>
          split at h
          · simp at h
          · next h3 =>
            split at h
            · simp at h
            · next h4 =>
              simp only [Bool.and_eq_true, Bool.not_eq_true', List.isEmpty_eq_false,
                decide_eq_true_eq, not_and, not_not] at h4
              rw [pour_spec g.capacity c0 _ _ hsrc] at h
              injection h with h
              injection h with hstate hpoured
              refine ⟨c0, h1, h2, hsrc, by omega, ?_, hpoured.symm, ?_⟩
              · by_cases hdst : s.getD m.dst [] = []
                · exact Or.inl hdst
                · exact Or.inr (h4 hdst)
              · rw [← hstate, ← hpoured]
  · rintro ⟨c, hA, hB, hC, hD, hE, hp, hs2⟩
    rw [if_neg (not_not_intro hA), if_neg hB]
    split
    · rename_i heq
      rw [hC] at heq
      simp at heq
    · rename_i c0 heq
      rw [hC] at heq
      injection heq with hc0
      subst hc0
      rw [if_neg (by omega : ¬ g.capacity ≤ (s.getD m.dst []).length)]
      rw [if_neg ?hcol]
      case hcol =>
        simp only [Bool.and_eq_true, Bool.not_eq_true', List.isEmpty_eq_false,
          decide_eq_true_eq, not_and, not_not]
        intro hne
        cases hE with
        | inl he => exact absurd he hne
        | inr he => exact he
      rw [pour_spec g.capacity c _ _ hC]
      rw [hs2, hp]

/-- In a valid state every tube read by `getD` respects capacity. -/
theorem valid_tube_le {g : WaterSortGame} {s : GState α} (hval : g.is_valid_state s = true)
    (i : Nat) : (s.getD i []).length ≤ g.capacity := by
  unfold WaterSortGame.is_valid_state at hval
  simp only [Bool.and_eq_true, decide_eq_true_eq, List.all_eq_true] at hval
  by_cases hi : i < s.length
  · rw [List.getD_eq_getElem s [] hi]
    exact hval.2 _ (List.getElem_mem hi)
  · rw [List.getD_eq_default _ _ (by omega)]
    simp

/-- An `apply_move` call either errors or succeeds. -/
theorem apply_move_cases (g : WaterSortGame) (s : GState α) (m : Move) :
    (∃ e, g.apply_move s m = .error e) ∨ ∃ s2 p, g.apply_move s m = .ok (s2, p) := by
  cases h : g.apply_move s m with
  | error e => exact Or.inl ⟨e, rfl⟩
  | ok x => obtain ⟨s2, p⟩ := x; exact Or.inr ⟨s2, p, rfl⟩


/-- C5. On a valid state, `apply_move` errors exactly on the five illegal
situations (index out of range, equal tubes, empty source, full destination,
or mismatched top color on a non-empty destination); otherwise it succeeds,
pouring `min(top run of the source, remaining capacity of the destination)`
units, which is at least one. -/
theorem claim_C5 (g : WaterSortGame) (s : GState α) (m : Move)
    (hval : g.is_valid_state s = true) :
    ((∃ e, g.apply_move s m = .error e) ↔ IllegalCond g s m) ∧
    (∀ s2 p, g.apply_move s m = .ok (s2, p) →
      1 ≤ p ∧
      p = min (topRunLength (s.getD m.src [])) (g.capacity - (s.getD m.dst []).length)) := by
  constructor
  · constructor
    · rintro ⟨e, he⟩
      by_contra hill
      unfold IllegalCond at hill
      push_neg at hill
      obtain ⟨h1, h2, h3, h4, h5⟩ := hill
      obtain ⟨c, hc⟩ : ∃ c, (s.getD m.src []).getLast? = some c := by
        cases hlast : (s.getD m.src []).getLast? with
        | none => exact absurd (List.getLast?_eq_none_iff.mp hlast) h3
        | some c => exact ⟨c, rfl⟩
      have hlt : (s.getD m.dst []).length < g.capacity := by
        have := valid_tube_le hval m.dst
        omega
      have hE : s.getD m.dst [] = [] ∨ (s.getD m.dst []).getLast? = some c := by
        by_cases hdst : s.getD m.dst [] = []
        · exact Or.inl hdst
        · refine Or.inr ?_
          have := h5 hdst
          rw [this, hc]
      have hok : g.apply_move s m =
          .ok ((s.set m.src ((s.getD m.src []).take ((s.getD m.src []).length -
                  min (topRunLength (s.getD m.src []))
                    (g.capacity - (s.getD m.dst []).length)))).set m.dst
                (s.getD m.dst [] ++ List.replicate
                  (min (topRunLength (s.getD m.src []))
                    (g.capacity - (s.getD m.dst []).length)) c),
               min (topRunLength (s.getD m.src []))
                 (g.capacity - (s.getD m.dst []).length)) :=
        apply_move_eq_ok.mpr ⟨c, h1, h2, hc, hlt, hE, rfl, rfl⟩
      rw [hok] at he
      exact absurd he (by simp)
    · intro hill
      rcases apply_move_cases g s m with he | ⟨s2, p, hok⟩
      · exact he
      · obtain ⟨c, hA, hB, hC, hD, hE, -, -⟩ := apply_move_eq_ok.mp hok
        unfold IllegalCond at hill
        rcases hill with h | h | h | h | ⟨hne, hdiff⟩
        · exact absurd hA h
        · exact absurd h hB
        · rw [h] at hC; exact absurd hC (by simp)
        · omega
        · cases hE with
          | inl he => exact absurd he hne
          | inr he => rw [he, hC] at hdiff; exact absurd rfl hdiff
  · intro s2 p hok
    obtain ⟨c, hA, hB, hC, hD, hE, hp, -⟩ := apply_move_eq_ok.mp hok
    refine ⟨?_, hp⟩
    have h1 : 1 ≤ topRunLength (s.getD m.src []) := topRunLength_pos hC
    omega

/-- Membership characterization of `get_valid_moves` (no validity needed):
exactly the in-range pairs with distinct tubes, non-empty source, destination
length different from capacity, and empty-or-matching destination top. -/
theorem mem_get_valid_moves {g : WaterSortGame} {s : GState α} {m : Move} :
    m ∈ g.get_valid_moves s ↔
      m.src < s.length ∧ m.dst < s.length ∧ m.src ≠ m.dst ∧
      s.getD m.src [] ≠ [] ∧ (s.getD m.dst []).length ≠ g.capacity ∧
      (s.getD m.dst [] = [] ∨ (s.getD m.dst []).getLast? = (s.getD m.src []).getLast?) := by
  unfold WaterSortGame.get_valid_moves
  rw [List.mem_flatMap]
  constructor
  · rintro ⟨si, hsi, hm⟩
    rw [List.mem_range] at hsi
    by_cases hemp : (s.getD si []).isEmpty
    · rw [if_pos hemp] at hm
      simp at hm
    · rw [if_neg hemp] at hm
      rw [List.mem_filterMap] at hm
      obtain ⟨di, hdi, heq⟩ := hm
      rw [List.mem_range] at hdi
      split_ifs at heq with e1 e2 e3
      · injection heq with heq
        subst heq
        simp only [Bool.and_eq_true, Bool.not_eq_true', List.isEmpty_eq_false,
          decide_eq_true_eq, not_and, not_not] at e3
        refine ⟨hsi, hdi, e1, ?_, e2, ?_⟩
        · show s.getD si [] ≠ []
          intro hnil
          rw [hnil] at hemp
          simp at hemp
        · show s.getD di [] = [] ∨ _
          by_cases hd : s.getD di [] = []
          · exact Or.inl hd
          · exact Or.inr (e3 hd)
      all_goals simp at heq
  · rintro ⟨h1, h2, h3, h4, h5, h6⟩
    refine ⟨m.src, List.mem_range.mpr h1, ?_⟩
    rw [if_neg (by simpa [List.isEmpty_eq_false] using h4)]
    rw [List.mem_filterMap]
    refine ⟨m.dst, List.mem_range.mpr h2, ?_⟩
    rw [if_neg h3, if_neg h5, if_neg ?hc]
    case hc =>
      simp only [Bool.and_eq_true, Bool.not_eq_true', List.isEmpty_eq_false,
        decide_eq_true_eq, not_and, not_not]
      intro hne
      cases h6 with
      | inl he => exact absurd he hne
      | inr he => exact he

/-- C1. Every move enumerated by `get_valid_moves` on a valid state is
accepted by `apply_move`: the search engine never triggers a move-application
error on a move the model itself enumerated as legal. -/
theorem claim_C1 (g : WaterSortGame) (s : GState α) (m : Move)
    (hval : g.is_valid_state s = true) (hm : m ∈ g.get_valid_moves s) :
    ∃ s2 p, g.apply_move s m = .ok (s2, p) := by
  obtain ⟨h1, h2, h3, h4, h5, h6⟩ := mem_get_valid_moves.mp hm
  obtain ⟨c, hc⟩ : ∃ c, (s.getD m.src []).getLast? = some c := by
    cases hlast : (s.getD m.src []).getLast? with
    | none => exact absurd (List.getLast?_eq_none_iff.mp hlast) h4
    | some c => exact ⟨c, rfl⟩
  have hlt : (s.getD m.dst []).length < g.capacity := by
    have := valid_tube_le hval m.dst
    omega
  have hE : s.getD m.dst [] = [] ∨ (s.getD m.dst []).getLast? = some c := by
    cases h6 with
    | inl he => exact Or.inl he
    | inr he => exact Or.inr (by rw [he, hc])
  exact ⟨_, _, apply_move_eq_ok.mpr ⟨c, ⟨h1, h2⟩, h3, hc, hlt, hE, rfl, rfl⟩⟩

/-- Anything produced by the inner destination filter of `get_valid_moves`
for source `si` and destination `di` is the move `(si, di)`. -/
theorem inner_filter_eq {g : WaterSortGame} {s : GState α} {si di : Nat} {x : Move}
    (hx : (if si = di then none
           else if (s.getD di []).length = g.capacity then none
           else if !(s.getD di []).isEmpty &&
               decide ((s.getD di []).getLast? ≠ (s.getD si []).getLast?) then none
           else some ⟨si, di⟩) = some x) : x = ⟨si, di⟩ := by
  split_ifs at hx
  · injection hx with hx
    exact hx.symm
  all_goals simp at hx

/-- Every element of the per-source list of `get_valid_moves` has that source
index. -/
theorem outer_mem_src {g : WaterSortGame} {s : GState α} {si : Nat} {x : Move}
    (hx : x ∈ (if (s.getD si []).isEmpty then ([] : List Move)
               else (List.range s.length).filterMap fun dst_idx =>
                 if si = dst_idx then none
                 else if (s.getD dst_idx []).length = g.capacity then none
                 else if !(s.getD dst_idx []).isEmpty &&
                     decide ((s.getD dst_idx []).getLast? ≠ (s.getD si []).getLast?) then none
                 else some ⟨si, dst_idx⟩)) : x.src = si := by
  by_cases hemp : (s.getD si []).isEmpty
  · rw [if_pos hemp] at hx
    simp at hx
  · rw [if_neg hemp] at hx
    rw [List.mem_filterMap] at hx
    obtain ⟨di, -, heq⟩ := hx
    rw [inner_filter_eq heq]

/-- The move list returned by `get_valid_moves` is sorted by source index
ascending and, within each source, by destination index ascending. -/
theorem get_valid_moves_pairwise (g : WaterSortGame) (s : GState α) :
    List.Pairwise MoveLex (g.get_valid_moves s) := by
  unfold WaterSortGame.get_valid_moves
  rw [List.flatMap_def, List.pairwise_join]
  constructor
  · intro l hl
    rw [List.mem_map] at hl
    obtain ⟨si, -, rfl⟩ := hl
    by_cases hemp : (s.getD si []).isEmpty
    · rw [if_pos hemp]
      exact List.Pairwise.nil
    · rw [if_neg hemp]
      rw [List.pairwise_filterMap]
      refine (List.pairwise_lt_range s.length).imp ?_
      intro di dj hij x hx y hy
      rw [Option.mem_def] at hx hy
      rw [inner_filter_eq hx, inner_filter_eq hy]
      exact Or.inr ⟨rfl, hij⟩
  · rw [List.pairwise_map]
    refine (List.pairwise_lt_range s.length).imp ?_
    intro si sj hij x hx y hy
    have hx2 := outer_mem_src hx
    have hy2 := outer_mem_src hy
    exact Or.inl (by rw [hx2, hy2]; exact hij)

/-- C6. On a valid state, `get_valid_moves` returns exactly the moves with
distinct in-range tubes, non-empty source, not-full destination, and empty or
top-color-matching destination (in particular it never returns a move with
source equal to destination, never a move into a full destination, and does
not filter a pure tube poured entirely into an empty tube), and the returned
list is ordered by source index ascending, destination ascending within each
source. -/
theorem claim_C6 (g : WaterSortGame) (s : GState α) (hval : g.is_valid_state s = true) :
    (∀ m : Move, m ∈ g.get_valid_moves s ↔
      m.src < s.length ∧ m.dst < s.length ∧ m.src ≠ m.dst ∧
      s.getD m.src [] ≠ [] ∧ (s.getD m.dst []).length < g.capacity ∧
      (s.getD m.dst [] = [] ∨ (s.getD m.dst []).getLast? = (s.getD m.src []).getLast?)) ∧
    List.Pairwise MoveLex (g.get_valid_moves s) := by
  refine ⟨?_, get_valid_moves_pairwise g s⟩
  intro m
  rw [mem_get_valid_moves]
  constructor
  · rintro ⟨h1, h2, h3, h4, h5, h6⟩
    have := valid_tube_le hval m.dst
    exact ⟨h1, h2, h3, h4, by omega, h6⟩
  · rintro ⟨h1, h2, h3, h4, h5, h6⟩
    exact ⟨h1, h2, h3, h4, by omega, h6⟩

/-- Replacing the `i`-th entry of a list of naturals changes the sum by the
difference, stated without truncated subtraction. -/
theorem sum_set_getD :
    ∀ (l : List Nat) (i : Nat), i < l.length → ∀ a : Nat,
      (l.set i a).sum + l.getD i 0 = l.sum + a := by
  intro l
  induction l with
  | nil => intro i hi; simp at hi
  | cons x xs ih =>
    intro i hi a
    cases i with
    | zero => simp [List.set]; omega
    | succ i =>
      simp only [List.set, List.sum_cons, List.getD_cons_succ]
      have := ih i (by simpa using hi) a
      omega

/-- Replacing one tube shifts `colorCount` by the count difference of that
tube. -/
theorem colorCount_set (s : GState α) (i : Nat) (hi : i < s.length) (t : Tube α) (x : α) :
    colorCount (s.set i t) x + (s.getD i []).count x = colorCount s x + t.count x := by
  unfold colorCount
  rw [List.map_set]
  have h := sum_set_getD (s.map fun tt => tt.count x) i (by simpa using hi) (t.count x)
  have h0 : (s.map fun tt => tt.count x).getD i 0 = (s.getD i []).count x := by
    have := List.getD_map s ([] : Tube α) (n := i) (fun tt => tt.count x)
    simpa using this
  rw [h0] at h
  exact h

/-- Tube membership in a valid state bounds its length. -/
theorem valid_mem_tube_le {g : WaterSortGame} {s : GState α}
    (hval : g.is_valid_state s = true) {t : Tube α} (ht : t ∈ s) :
    t.length ≤ g.capacity := by
  unfold WaterSortGame.is_valid_state at hval
  simp only [Bool.and_eq_true, decide_eq_true_eq, List.all_eq_true] at hval
  exact hval.2 t ht

/-- One successful `apply_move` from a valid state preserves all per-color
counts and validity. -/
theorem apply_move_preserves {g : WaterSortGame} {s : GState α} {m : Move}
    {s2 : GState α} {p : Nat} (hval : g.is_valid_state s = true)
    (hok : g.apply_move s m = .ok (s2, p)) :
    (∀ x, colorCount s2 x = colorCount s x) ∧ g.is_valid_state s2 = true := by
  obtain ⟨c, ⟨hsrc_lt, hdst_lt⟩, hne, hC, hD, -, hp, hs2⟩ := apply_move_eq_ok.mp hok
  have hdecomp := pour_src_decomp g.capacity c (s.getD m.src [])
    (s.getD m.dst []).length hC
  rw [← hp] at hdecomp
  constructor
  · intro x
    have h1 := colorCount_set s m.src hsrc_lt
      ((s.getD m.src []).take ((s.getD m.src []).length - p)) x
    have hlen : (s.set m.src ((s.getD m.src []).take ((s.getD m.src []).length - p))).length =
        s.length := List.length_set s _ _
    have h2 := colorCount_set (s.set m.src ((s.getD m.src []).take
        ((s.getD m.src []).length - p))) m.dst (by omega)
      (s.getD m.dst [] ++ List.replicate p c) x
    have hgd : (s.set m.src ((s.getD m.src []).take ((s.getD m.src []).length - p))).getD
        m.dst [] = s.getD m.dst [] := by
      rw [List.getD_eq_getElem?_getD, List.getD_eq_getElem?_getD,
        List.getElem?_set_ne hne]
      rw [← List.getD_eq_getElem?_getD]
    rw [hgd] at h2
    have hcount_src : (s.getD m.src []).count x =
        ((s.getD m.src []).take ((s.getD m.src []).length - p)).count x +
          (List.replicate p c).count x := by
      conv_lhs => rw [hdecomp]
      rw [List.count_append]
    have hcount_dst : (s.getD m.dst [] ++ List.replicate p c).count x =
        (s.getD m.dst []).count x + (List.replicate p c).count x := List.count_append x _ _
    rw [hs2]
    omega
  · have hlen2 : s2.length = s.length := by rw [hs2]; simp
    unfold WaterSortGame.is_valid_state at hval ⊢
    simp only [Bool.and_eq_true, decide_eq_true_eq, List.all_eq_true] at hval ⊢
    refine ⟨by rw [hlen2]; exact hval.1, ?_⟩
    intro t ht
    rw [hs2] at ht
    rcases List.mem_or_eq_of_mem_set ht with ht1 | ht1
    · rcases List.mem_or_eq_of_mem_set ht1 with ht2 | ht2
      · exact hval.2 t ht2
      · rw [ht2, List.length_take]
        have h3 : (s.getD m.src []).length ≤ g.capacity := by
          rw [List.getD_eq_getElem s [] hsrc_lt]
          exact hval.2 _ (List.getElem_mem hsrc_lt)
        omega
    · rw [ht1, List.length_append, List.length_replicate]
      have hple : p ≤ g.capacity - (s.getD m.dst []).length := by
        rw [hp]; exact Nat.min_le_right _ _
      omega

/-- Replaying a move list from a valid state preserves counts and validity. -/
theorem replay_preserves {g : WaterSortGame} :
    ∀ (l : List Move) (s t : GState α), g.is_valid_state s = true →
      replay g s l = some t →
      (∀ x, colorCount t x = colorCount s x) ∧ g.is_valid_state t = true := by
  intro l
  induction l with
  | nil =>
    intro s t hval hr
    unfold replay at hr
    injection hr with hr
    subst hr
    exact ⟨fun _ => rfl, hval⟩
  | cons m ms ih =>
    intro s t hval hr
    unfold replay at hr
    cases hstep : g.apply_move s m with
    | error e => rw [hstep] at hr; simp at hr
    | ok x =>
      rw [hstep] at hr
      obtain ⟨s1, p⟩ := x
      have hpres := apply_move_preserves hval hstep
      have := ih s1 t hpres.2 hr
      exact ⟨fun y => by rw [this.1 y, hpres.1 y], this.2⟩

/-- C4. A successful `apply_move` from a valid state conserves every
per-color unit count and keeps every tube within capacity; consequently every
state reachable by legal moves from a valid state has the same per-color
counts (so a per-color count equal to `capacity` stays equal to `capacity`)
and stays valid. -/
theorem claim_C4 (g : WaterSortGame) (s : GState α) (hval : g.is_valid_state s = true) :
    (∀ (m : Move) (s2 : GState α) (p : Nat), g.apply_move s m = .ok (s2, p) →
      (∀ x, colorCount s2 x = colorCount s x) ∧ g.is_valid_state s2 = true) ∧
    (∀ t : GState α, Reachable g s t →
      (∀ x, colorCount t x = colorCount s x) ∧ g.is_valid_state t = true ∧
      (∀ x, colorCount s x = g.capacity → colorCount t x = g.capacity)) := by
  constructor
  · intro m s2 p hok
    exact apply_move_preserves hval hok
  · rintro t ⟨l, hl⟩
    obtain ⟨hcnt, hv⟩ := replay_preserves l s t hval hl
    exact ⟨hcnt, hv, fun x hx => by rw [hcnt x, hx]⟩

/-- The maximum entry of a list of naturals is at most its sum. -/
theorem foldr_max_le_sum : ∀ l : List Nat, l.foldr max 0 ≤ l.sum := by
  intro l
  induction l with
  | nil => simp
  | cons a l ih =>
    simp only [List.foldr_cons, List.sum_cons]
    omega

/-- The bottom streak never exceeds the tube length. -/
theorem bottomStreak_le_length (t : Tube α) : bottomStreak t ≤ t.length := by
  cases t with
  | nil => simp [bottomStreak]
  | cons c rest =>
    unfold bottomStreak
    exact (List.takeWhile_sublist _).length_le

/-- C9. On every valid state the three heuristics return non-negative
integers; the completion heuristic depends on the game only through its
capacity (entropy and blocking take no game argument at all in the
embedding, exhibiting the same independence). -/
theorem claim_C9 (g : WaterSortGame) (s : GState α) (hval : g.is_valid_state s = true) :
    0 ≤ entropy_heuristic s ∧ 0 ≤ completion_heuristic g s ∧ 0 ≤ blocking_heuristic s ∧
    (∀ g2 : WaterSortGame, g2.capacity = g.capacity →
      completion_heuristic g2 s = completion_heuristic g s) := by
  refine ⟨?_, ?_, ?_, ?_⟩
  · unfold entropy_heuristic
    apply List.sum_nonneg
    intro x hx
    rw [List.mem_map] at hx
    obtain ⟨c, -, rfl⟩ := hx
    by_cases hlen : (colorAmounts s c).length ≤ 1
    · simp [hlen]
    · rw [if_neg hlen]
      apply mul_nonneg
      · have : (1 : Int) ≤ (colorAmounts s c).length := by
          push_neg at hlen
          exact_mod_cast Nat.one_le_of_lt hlen
        omega
      · have := foldr_max_le_sum (colorAmounts s c)
        omega
  · unfold completion_heuristic
    simp only []
    have hsum : ((s.filter fun tube => !tube.isEmpty &&
        !(decide (tube.length = g.capacity) && decide (tube.dedup.length = 1))).map
          fun t => (bottomStreak t : Int)).sum ≤
        ((s.filter fun tube => !tube.isEmpty &&
          !(decide (tube.length = g.capacity) && decide (tube.dedup.length = 1))).length : Int)
          * (g.capacity : Int) := by
      have hstep : ∀ t ∈ s.filter fun tube => !tube.isEmpty &&
          !(decide (tube.length = g.capacity) && decide (tube.dedup.length = 1)),
          (bottomStreak t : Int) ≤ (g.capacity : Int) := by
        intro t ht
        have hmem : t ∈ s := List.mem_of_mem_filter ht
        have h1 := bottomStreak_le_length t
        have h2 := valid_mem_tube_le hval hmem
        exact_mod_cast le_trans h1 h2
      calc ((s.filter _).map fun t => (bottomStreak t : Int)).sum
          ≤ ((s.filter _).map fun t => (bottomStreak t : Int)).length •
              (g.capacity : Int) := by
            apply List.sum_le_card_nsmul
            intro x hx
            rw [List.mem_map] at hx
            obtain ⟨t, ht, rfl⟩ := hx
            exact hstep t ht
        _ = ((s.filter _).length : Int) * (g.capacity : Int) := by
            rw [List.length_map, nsmul_eq_mul]
    omega
  · unfold blocking_heuristic
    simp only []
    have h1 : (0 : Int) ≤ ((((s.filter fun t => decide (1 < t.dedup.length)).map
        List.length).sum : Nat) : Int) := Int.natCast_nonneg _
    have h2 : (0 : Int) ≤ (((s.map fun t => blockedUnits t).sum : Nat) : Int) :=
      Int.natCast_nonneg _
    omega
  · intro g2 hcap
    unfold completion_heuristic
    rw [hcap]

/-- A tube whose `dedup` has a single element is homogeneous. -/
theorem all_eq_of_dedup_length_one {t : Tube α} (h : t.dedup.length = 1) :
    ∀ x ∈ t, ∀ y ∈ t, x = y := by
  obtain ⟨a, ha⟩ := List.length_eq_one.mp h
  intro x hx y hy
  have hxa : x ∈ t.dedup := List.mem_dedup.mpr hx
  have hya : y ∈ t.dedup := List.mem_dedup.mpr hy
  rw [ha] at hxa hya
  simp only [List.mem_singleton] at hxa hya
  rw [hxa, hya]

/-- Homogeneous tubes have no blocked units. -/
theorem blockedUnits_eq_zero {t : Tube α} (h : ∀ x ∈ t, ∀ y ∈ t, x = y) :
    blockedUnits t = 0 := by
  induction t with
  | nil => rfl
  | cons c rest ih =>
    unfold blockedUnits
    have hany : rest.any (fun u => decide (u ≠ c)) = false := by
      rw [List.any_eq_false]
      intro u hu
      have : u = c := h u (List.mem_cons_of_mem c hu) c (List.mem_cons_self c rest)
      simp [this]
    rw [hany]
    simp only [Bool.false_eq_true, if_false, Nat.zero_add]
    exact ih fun x hx y hy =>
      h x (List.mem_cons_of_mem c hx) y (List.mem_cons_of_mem c hy)

/-- The per-tube classification a goal state gives. -/
theorem goal_tube_cases {g : WaterSortGame} {s : GState α}
    (hgoal : g.is_goal_state s = true) :
    ∀ t ∈ s, t = [] ∨ (t.length = g.capacity ∧ t.dedup.length = 1) := by
  unfold WaterSortGame.is_goal_state at hgoal
  rw [List.all_eq_true] at hgoal
  intro t ht
  have := hgoal t ht
  simp only [Bool.or_eq_true, List.isEmpty_iff, Bool.and_eq_true, decide_eq_true_eq] at this
  exact this

/-- C10 (amended). On every valid goal state the completion and blocking
heuristics return exactly 0; the entropy heuristic returns 0 provided
additionally that each color occupies at most one tube (without that proviso
it can be positive on a goal state, see the counterexample). -/
theorem claim_C10 (g : WaterSortGame) (s : GState α) (hval : g.is_valid_state s = true)
    (hgoal : g.is_goal_state s = true) :
    completion_heuristic g s = 0 ∧ blocking_heuristic s = 0 ∧
    ((∀ c : α, (colorAmounts s c).length ≤ 1) → entropy_heuristic s = 0) := by
  have hcases := goal_tube_cases hgoal
  refine ⟨?_, ?_, ?_⟩
  · unfold completion_heuristic
    have hnil : (s.filter fun tube => !tube.isEmpty &&
        !(decide (tube.length = g.capacity) && decide (tube.dedup.length = 1))) = [] := by
      rw [List.filter_eq_nil_iff]
      intro t ht
      rcases hcases t ht with h | ⟨h1, h2⟩
      · simp [h]
      · simp [h1, h2]
    rw [hnil]
    simp
  · unfold blocking_heuristic
    have hnil : (s.filter fun t => decide (1 < t.dedup.length)) = [] := by
      rw [List.filter_eq_nil_iff]
      intro t ht
      rcases hcases t ht with h | ⟨-, h2⟩
      · simp [h]
      · simp [h2]
    have hzero : (s.map fun t => blockedUnits t).sum = 0 := by
      apply List.sum_eq_zero
      intro x hx
      rw [List.mem_map] at hx
      obtain ⟨t, ht, rfl⟩ := hx
      rcases hcases t ht with h | ⟨-, h2⟩
      · rw [h]; rfl
      · exact blockedUnits_eq_zero (all_eq_of_dedup_length_one h2)
    rw [hnil, hzero]
    simp
  · intro hone
    unfold entropy_heuristic
    apply List.sum_eq_zero
    intro x hx
    rw [List.mem_map] at hx
    obtain ⟨c, -, rfl⟩ := hx
    rw [if_pos (hone c)]

/-- C10 is false as stated: this valid goal state (two full tubes of the
same color) has entropy heuristic 4, not 0. -/
theorem claim_C10_counterexample :
    (WaterSortGame.mk 5 3 4).is_valid_state
      ([[0,0,0,0],[0,0,0,0],[2,2,2,2],[],[]] : GState Nat) = true ∧
    (WaterSortGame.mk 5 3 4).is_goal_state
      ([[0,0,0,0],[0,0,0,0],[2,2,2,2],[],[]] : GState Nat) = true ∧
    entropy_heuristic ([[0,0,0,0],[0,0,0,0],[2,2,2,2],[],[]] : GState Nat) = 4 := by
  refine ⟨by decide, by decide, by decide⟩

/-- Witness for C1 at a concrete game, state and enumerated move. -/
theorem claim_C1_witness :
    ∃ s2 p, (WaterSortGame.mk 5 3 4).apply_move
      ([[0,0,0,1],[],[2],[],[]] : GState Nat) ⟨0, 1⟩ = .ok (s2, p) :=
  claim_C1 (WaterSortGame.mk 5 3 4) ([[0,0,0,1],[],[2],[],[]] : GState Nat) ⟨0, 1⟩
    (by decide) (by decide)

/-- Witness for C4 at a concrete valid state. -/
theorem claim_C4_witness :
    (∀ (m : Move) (s2 : GState Nat) (p : Nat),
      (WaterSortGame.mk 5 3 4).apply_move ([[0,0,0,1],[],[2],[],[]] : GState Nat) m =
        .ok (s2, p) →
      (∀ x, colorCount s2 x = colorCount ([[0,0,0,1],[],[2],[],[]] : GState Nat) x) ∧
      (WaterSortGame.mk 5 3 4).is_valid_state s2 = true) ∧
    (∀ t : GState Nat, Reachable (WaterSortGame.mk 5 3 4)
        ([[0,0,0,1],[],[2],[],[]] : GState Nat) t →
      (∀ x, colorCount t x = colorCount ([[0,0,0,1],[],[2],[],[]] : GState Nat) x) ∧
      (WaterSortGame.mk 5 3 4).is_valid_state t = true ∧
      (∀ x, colorCount ([[0,0,0,1],[],[2],[],[]] : GState Nat) x = 4 →
        colorCount t x = 4)) :=
  claim_C4 (WaterSortGame.mk 5 3 4) ([[0,0,0,1],[],[2],[],[]] : GState Nat) (by decide)

/-- Witness for C5 at a concrete valid state and move. -/
theorem claim_C5_witness :
    ((∃ e, (WaterSortGame.mk 5 3 4).apply_move
        ([[0,0,0,1],[],[2],[],[]] : GState Nat) ⟨0, 1⟩ = .error e) ↔
      IllegalCond (WaterSortGame.mk 5 3 4) ([[0,0,0,1],[],[2],[],[]] : GState Nat) ⟨0, 1⟩) ∧
    (∀ s2 p, (WaterSortGame.mk 5 3 4).apply_move
        ([[0,0,0,1],[],[2],[],[]] : GState Nat) ⟨0, 1⟩ = .ok (s2, p) →
      1 ≤ p ∧
      p = min (topRunLength (([[0,0,0,1],[],[2],[],[]] : GState Nat).getD 0 []))
        (4 - (([[0,0,0,1],[],[2],[],[]] : GState Nat).getD 1 []).length)) :=
  claim_C5 (WaterSortGame.mk 5 3 4) ([[0,0,0,1],[],[2],[],[]] : GState Nat) ⟨0, 1⟩
    (by decide)

/-- Witness for C6 at a concrete valid state. -/
theorem claim_C6_witness :
    (∀ m : Move, m ∈ (WaterSortGame.mk 5 3 4).get_valid_moves
        ([[0,0,0,1],[],[2],[],[]] : GState Nat) ↔
      m.src < ([[0,0,0,1],[],[2],[],[]] : GState Nat).length ∧
      m.dst < ([[0,0,0,1],[],[2],[],[]] : GState Nat).length ∧ m.src ≠ m.dst ∧
      ([[0,0,0,1],[],[2],[],[]] : GState Nat).getD m.src [] ≠ [] ∧
      (([[0,0,0,1],[],[2],[],[]] : GState Nat).getD m.dst []).length < 4 ∧
      (([[0,0,0,1],[],[2],[],[]] : GState Nat).getD m.dst [] = [] ∨
        (([[0,0,0,1],[],[2],[],[]] : GState Nat).getD m.dst []).getLast? =
          (([[0,0,0,1],[],[2],[],[]] : GState Nat).getD m.src []).getLast?)) ∧
    List.Pairwise MoveLex ((WaterSortGame.mk 5 3 4).get_valid_moves
      ([[0,0,0,1],[],[2],[],[]] : GState Nat)) :=
  claim_C6 (WaterSortGame.mk 5 3 4) ([[0,0,0,1],[],[2],[],[]] : GState Nat) (by decide)

/-- Witness for C9 at a concrete valid state. -/
theorem claim_C9_witness :
    0 ≤ entropy_heuristic ([[0,0,0,1],[],[2],[],[]] : GState Nat) ∧
    0 ≤ completion_heuristic (WaterSortGame.mk 5 3 4)
        ([[0,0,0,1],[],[2],[],[]] : GState Nat) ∧
    0 ≤ blocking_heuristic ([[0,0,0,1],[],[2],[],[]] : GState Nat) ∧
    (∀ g2 : WaterSortGame, g2.capacity = (WaterSortGame.mk 5 3 4).capacity →
      completion_heuristic g2 ([[0,0,0,1],[],[2],[],[]] : GState Nat) =
        completion_heuristic (WaterSortGame.mk 5 3 4)
          ([[0,0,0,1],[],[2],[],[]] : GState Nat)) :=
  claim_C9 (WaterSortGame.mk 5 3 4) ([[0,0,0,1],[],[2],[],[]] : GState Nat) (by decide)

/-- Witness for the amended C10 at a concrete valid goal state. -/
theorem claim_C10_witness :
    completion_heuristic (WaterSortGame.mk 5 3 4)
      ([[0,0,0,0],[1,1,1,1],[2,2,2,2],[],[]] : GState Nat) = 0 ∧
    blocking_heuristic ([[0,0,0,0],[1,1,1,1],[2,2,2,2],[],[]] : GState Nat) = 0 ∧
    ((∀ c : Nat, (colorAmounts ([[0,0,0,0],[1,1,1,1],[2,2,2,2],[],[]] : GState Nat) c).length
        ≤ 1) →
      entropy_heuristic ([[0,0,0,0],[1,1,1,1],[2,2,2,2],[],[]] : GState Nat) = 0) :=
  claim_C10 (WaterSortGame.mk 5 3 4) ([[0,0,0,0],[1,1,1,1],[2,2,2,2],[],[]] : GState Nat)
    (by decide) (by decide)

/-- `setAdd` on a fresh element is a cons. -/
theorem setAdd_of_not_mem {β : Type} [DecidableEq β] {l : List β} {a : β} (h : a ∉ l) :
    setAdd l a = a :: l := by
  unfold setAdd
  rw [if_neg h]

/-- Erasing a freshly added element restores the set (for any lawful
equality test, matching whichever `BEq` path the elaborator picked). -/
theorem erase_setAdd {β : Type} [DecidableEq β] [BEq β] [LawfulBEq β]
    {l : List β} {a : β} (h : a ∉ l) : (setAdd l a).erase a = l := by
  rw [setAdd_of_not_mem h, List.erase_cons_head]

/-- A failing `dfsMoves` pass restores the path-scoped visited set, provided
the continuation does. -/
theorem dfsMoves_visited {g : WaterSortGame}
    {rec : GState α → Nat → DfsSt α → Option (Bool × DfsSt α)}
    (Hrec : ∀ s2 d2 st2 r2, rec s2 d2 st2 = some r2 → r2.1 = false →
      r2.2.visited = st2.visited) :
    ∀ (moves : List Move) (state : GState α) (depth : Nat) (st : DfsSt α) r,
      dfsMoves g rec state depth moves st = some r → r.1 = false →
      r.2.visited = st.visited := by
  intro moves
  induction moves with
  | nil =>
    intro state depth st r hr hb
    unfold dfsMoves at hr
    injection hr with hr
    rw [← hr]
  | cons m ms ih =>
    intro state depth st r hr hb
    unfold dfsMoves at hr
    cases happ : g.apply_move state m with
    | error e => rw [happ] at hr; simp at hr
    | ok x =>
      rw [happ] at hr
      obtain ⟨next, np⟩ := x
      dsimp only at hr
      by_cases hmem : next ∈ st.visited
      · rw [if_pos hmem] at hr
        exact ih state depth st r hr hb
      · rw [if_neg hmem] at hr
        split at hr
        · simp at hr
        · rename_i st3 hrec
          injection hr with hr
          rw [← hr] at hb
          simp at hb
        · rename_i st3 hrec
          have hv3 := Hrec _ _ _ _ hrec rfl
          have hfin := ih state depth _ r hr hb
          rw [hfin]
          dsimp only
          rw [hv3]
          exact erase_setAdd hmem

/-- A failing `dfsSearch` restores the path-scoped visited set. -/
theorem dfsSearch_visited {g : WaterSortGame} {depth_limit : Option Nat} :
    ∀ (fuel : Nat) (state : GState α) (depth : Nat) (st : DfsSt α) r,
      dfsSearch g depth_limit fuel state depth st = some r → r.1 = false →
      r.2.visited = st.visited := by
  intro fuel
  induction fuel with
  | zero => intro state depth st r hr hb; unfold dfsSearch at hr; simp at hr
  | succ fuel ih =>
    intro state depth st r hr hb
    unfold dfsSearch at hr
    split at hr
    · injection hr with hr
      rw [← hr] at hb
      simp at hb
    · split at hr
      · injection hr with hr
        rw [← hr]
      · have hv := dfsMoves_visited (fun s2 d2 st2 r2 h2 => ih s2 d2 st2 r2 h2) _ _ _ _ _ hr hb
        simpa using hv

/-- Adding a fresh element grows the set by one. -/
theorem length_setAdd_of_not_mem {β : Type} [DecidableEq β] {l : List β} {a : β}
    (h : a ∉ l) : (setAdd l a).length = l.length + 1 := by
  rw [setAdd_of_not_mem h, List.length_cons]

/-- `dfsMoves` keeps the visited high-water mark at most `d + 1` when run
below an effective depth bound `d`, provided the continuation does. -/
theorem dfsMoves_bound {g : WaterSortGame} {d : Nat}
    {rec : GState α → Nat → DfsSt α → Option (Bool × DfsSt α)}
    (Hrec_vis : ∀ s2 d2 st2 r2, rec s2 d2 st2 = some r2 → r2.1 = false →
      r2.2.visited = st2.visited)
    (Hrec_bound : ∀ s2 d2 st2 r2, rec s2 d2 st2 = some r2 →
      st2.visited.length = d2 + 1 → d2 ≤ d → st2.max_frontier ≤ d + 1 →
      r2.2.max_frontier ≤ d + 1) :
    ∀ (moves : List Move) (state : GState α) (depth : Nat) (st : DfsSt α) r,
      dfsMoves g rec state depth moves st = some r →
      depth < d → st.visited.length = depth + 1 → st.max_frontier ≤ d + 1 →
      r.2.max_frontier ≤ d + 1 := by
  intro moves
  induction moves with
  | nil =>
    intro state depth st r hr hd hlen hmf
    unfold dfsMoves at hr
    injection hr with hr
    rw [← hr]
    exact hmf
  | cons m ms ih =>
    intro state depth st r hr hd hlen hmf
    unfold dfsMoves at hr
    cases happ : g.apply_move state m with
    | error e => rw [happ] at hr; simp at hr
    | ok x =>
      rw [happ] at hr
      obtain ⟨next, np⟩ := x
      dsimp only at hr
      by_cases hmem : next ∈ st.visited
      · rw [if_pos hmem] at hr
        exact ih state depth st r hr hd hlen hmf
      · rw [if_neg hmem] at hr
        have hlen2 : (setAdd st.visited next).length = depth + 2 := by
          rw [length_setAdd_of_not_mem hmem, hlen]
        split at hr
        · simp at hr
        · rename_i st3 hrec
          injection hr with hr
          rw [← hr]
          have := Hrec_bound _ _ _ _ hrec (by simpa using hlen2) (by omega)
            (by dsimp only; rw [hlen2]; omega)
          simpa using this
        · rename_i st3 hrec
          have hmf3 := Hrec_bound _ _ _ _ hrec (by simpa using hlen2) (by omega)
            (by dsimp only; rw [hlen2]; omega)
          have hv3 := Hrec_vis _ _ _ _ hrec rfl
          refine ih state depth _ r hr hd ?_ (by simpa using hmf3)
          dsimp only
          rw [hv3]
          dsimp only
          rw [erase_setAdd hmem]
          exact hlen

/-- `dfsSearch` with an explicit depth limit `d` keeps the visited high-water
mark at most `d + 1`: no branch is explored deeper than `d` moves. -/
theorem dfsSearch_bound {g : WaterSortGame} {d : Nat} :
    ∀ (fuel : Nat) (state : GState α) (depth : Nat) (st : DfsSt α) r,
      dfsSearch g (some d) fuel state depth st = some r →
      st.visited.length = depth + 1 → st.max_frontier ≤ d + 1 →
      r.2.max_frontier ≤ d + 1 := by
  intro fuel
  induction fuel with
  | zero => intro state depth st r hr hlen hmf; unfold dfsSearch at hr; simp at hr
  | succ fuel ih =>
    intro state depth st r hr hlen hmf
    unfold dfsSearch at hr
    split at hr
    · injection hr with hr
      rw [← hr]
      exact hmf
    · split at hr
      · injection hr with hr
        rw [← hr]
        exact hmf
      · rename_i hcut
        have hd : depth < d := by
          simp only [decide_eq_true_eq] at hcut
          omega
        have := dfsMoves_bound
          (fun s2 d2 st2 r2 h2 => dfsSearch_visited fuel s2 d2 st2 r2 h2)
          (fun s2 d2 st2 r2 h2 hl2 hd2 hm2 => ih s2 d2 st2 r2 h2 hl2 hm2)
          _ _ _ _ _ hr hd (by simpa using hlen) (by simpa using hmf)
        exact this

/-- C7 (amended). When `dfs` is invoked with an explicit depth limit `d`
(as `run_test_cases.py` does with 100), no branch is explored deeper than `d`
moves: the high-water mark of the path-scoped visited set (reported as
`max_frontier_size`, and equal to one more than the deepest recursion depth
reached) stays at most `d + 1`.  When invoked without an explicit
`depth_limit` the Python default is `None` and no depth bound is applied (see
the counterexample). -/
theorem claim_C7 (g : WaterSortGame) (fuel : Nat) (s : GState α) (d : Nat)
    (r : SearchResult) (st : DfsSt α) (hr : dfs g fuel s (some d) = some (r, st)) :
    r.max_frontier_size ≤ d + 1 := by
  unfold dfs at hr
  cases hsearch : dfsSearch g (some d) fuel s 0 (dfsInit s) with
  | none => rw [hsearch] at hr; simp at hr
  | some res =>
    rw [hsearch] at hr
    obtain ⟨found, st1⟩ := res
    have hbound := dfsSearch_bound fuel s 0 (dfsInit s) (found, st1) hsearch
      (by unfold dfsInit; simp) (by unfold dfsInit; simp)
    dsimp only at hr
    cases found with
    | true =>
      cases hsucc : st1.success_state with
      | none =>
        rw [hsucc] at hr
        dsimp only at hr
        injection hr with hr1
        injection hr1 with h1 h2
        rw [← h1]
        exact hbound
      | some goal =>
        rw [hsucc] at hr
        dsimp only at hr
        cases hrec2 : reconstruct_moves st1.parents st1.moves_taken
            (st1.parents.length + 1) goal [] with
        | none => rw [hrec2] at hr; simp at hr
        | some path =>
          rw [hrec2] at hr
          dsimp only at hr
          injection hr with hr1
          injection hr1 with h1 h2
          rw [← h1]
          exact hbound
    | false =>
      dsimp only at hr
      injection hr with hr1
      injection hr1 with h1 h2
      rw [← h1]
      exact hbound

set_option maxRecDepth 10000

/-- C7 is false as stated: invoked without an explicit `depth_limit` (Python
default `None`), `dfs` on this 8-tube state completes successfully with a
solution 101 moves deep and a visited high-water mark of 102 — a branch was
explored deeper than 100 moves, so no default depth limit of 100 is applied. -/
theorem claim_C7_counterexample :
    (dfs (WaterSortGame.mk 8 6 4) 140
        ([[0,1,2,3],[4,5,0,1],[2,3,4,5],[0,1,2,3],[4,5,0,1],[2,3,4,5],[],[]] : GState Nat)
        none).map
      (fun p => (p.1.success, p.1.depth, p.1.max_frontier_size)) =
        some (true, 101, 102) ∧ 100 < 101 := by
  exact ⟨by rfl, by decide⟩

set_option maxRecDepth 512

/-- Witness for the amended C7: a depth-limited run on an already-solved
state returns `max_frontier_size = 1 ≤ 101`. -/
theorem claim_C7_witness :
    (SearchResult.mk true [] 1 0 1 0).max_frontier_size ≤ 100 + 1 :=
  claim_C7 (WaterSortGame.mk 5 3 4) 10
    ([[0,0,0,0],[1,1,1,1],[2,2,2,2],[],[]] : GState Nat) 100
    ⟨true, [], 1, 0, 1, 0⟩
    { visited := [[[0,0,0,0],[1,1,1,1],[2,2,2,2],[],[]]]
      visited_history := [[[0,0,0,0],[1,1,1,1],[2,2,2,2],[],[]]]
      parents := [([[0,0,0,0],[1,1,1,1],[2,2,2,2],[],[]], none)]
      moves_taken := [([[0,0,0,0],[1,1,1,1],[2,2,2,2],[],[]], none)]
      expanded := 0
      max_frontier := 1
      success_state := some [[0,0,0,0],[1,1,1,1],[2,2,2,2],[],[]] }
    (by rfl)

/-- `setAdd` preserves distinctness. -/
theorem setAdd_nodup {β : Type} [DecidableEq β] {l : List β} {a : β} (h : l.Nodup) :
    (setAdd l a).Nodup := by
  unfold setAdd
  split
  · exact h
  · exact List.nodup_cons.mpr ⟨by assumption, h⟩

/-- `bfsExpand` only grows the visited history with fresh states. -/
theorem bfsExpand_history {g : WaterSortGame} {current : GState α} :
    ∀ (moves : List Move) (st : BfsSt α) st2,
      bfsExpand g current moves st = some st2 →
      st.visited_history.Nodup → st2.visited_history.Nodup := by
  intro moves
  induction moves with
  | nil =>
    intro st st2 hr hn
    unfold bfsExpand at hr
    injection hr with hr
    rw [← hr]
    exact hn
  | cons m ms ih =>
    intro st st2 hr hn
    unfold bfsExpand at hr
    cases happ : g.apply_move current m with
    | error e => rw [happ] at hr; simp at hr
    | ok x =>
      rw [happ] at hr
      obtain ⟨next, np⟩ := x
      dsimp only at hr
      by_cases hmem : next ∈ st.visited
      · rw [if_pos hmem] at hr
        exact ih st st2 hr hn
      · rw [if_neg hmem] at hr
        exact ih _ st2 hr (setAdd_nodup hn)

/-- The `explored_nodes` field a completed `bfsLoop` reports is exactly the
size of its final visited history, which stays duplicate-free. -/
theorem bfsLoop_explored {g : WaterSortGame} :
    ∀ (fuel : Nat) (st : BfsSt α) r st2,
      bfsLoop g fuel st = some (r, st2) → st.visited_history.Nodup →
      (r.explored_nodes = st2.visited_history.length ∧ st2.visited_history.Nodup) := by
  intro fuel
  induction fuel with
  | zero => intro st r st2 hr hn; unfold bfsLoop at hr; simp at hr
  | succ fuel ih =>
    intro st r st2 hr hn
    unfold bfsLoop at hr
    cases hf : st.frontier with
    | nil =>
      rw [hf] at hr
      injection hr with hr
      injection hr with h1 h2
      rw [← h1, ← h2]
      exact ⟨rfl, hn⟩
    | cons current rest =>
      rw [hf] at hr
      dsimp only at hr
      split at hr
      · split at hr
        · simp at hr
        · injection hr with hr
          injection hr with h1 h2
          rw [← h1, ← h2]
          exact ⟨rfl, hn⟩
      · split at hr
        · simp at hr
        · rename_i st3 hexp
          exact ih _ r st2 hr (bfsExpand_history _ _ st3 hexp hn)

/-- `aStarExpand` never touches the closed set. -/
theorem aStarExpand_visited {g : WaterSortGame} {heuristic : GState α → Int}
    {current : GState α} {current_g : Nat} :
    ∀ (moves : List Move) (st : AStarSt α) st2,
      aStarExpand g heuristic current current_g moves st = some st2 →
      st2.visited = st.visited := by
  intro moves
  induction moves with
  | nil =>
    intro st st2 hr
    unfold aStarExpand at hr
    injection hr with hr
    rw [← hr]
  | cons m ms ih =>
    intro st st2 hr
    unfold aStarExpand at hr
    cases happ : g.apply_move current m with
    | error e => rw [happ] at hr; simp at hr
    | ok x =>
      rw [happ] at hr
      obtain ⟨next, np⟩ := x
      dsimp only at hr
      split at hr
      · exact ih st st2 hr
      · rw [ih _ st2 hr]

/-- The `explored_nodes` field a completed `aStarLoop` reports is exactly the
size of its final closed set (the states popped from the heap and finalized),
which stays duplicate-free. -/
theorem aStarLoop_explored {g : WaterSortGame} {heuristic : GState α → Int} :
    ∀ (fuel : Nat) (st : AStarSt α) r st2,
      aStarLoop g heuristic fuel st = some (r, st2) → st.visited.Nodup →
      (r.explored_nodes = st2.visited.length ∧ st2.visited.Nodup) := by
  intro fuel
  induction fuel with
  | zero => intro st r st2 hr hn; unfold aStarLoop at hr; simp at hr
  | succ fuel ih =>
    intro st r st2 hr hn
    unfold aStarLoop at hr
    cases hpop : popMin st.open_heap with
    | none =>
      rw [hpop] at hr
      injection hr with hr
      injection hr with h1 h2
      rw [← h1, ← h2]
      exact ⟨rfl, hn⟩
    | some x =>
      rw [hpop] at hr
      obtain ⟨⟨f, cnt, current⟩, heap1⟩ := x
      dsimp only at hr
      by_cases hmem : current ∈ st.visited
      · rw [if_pos hmem] at hr
        exact ih _ r st2 hr hn
      · rw [if_neg hmem] at hr
        split at hr
        · split at hr
          · simp at hr
          · injection hr with hr
            injection hr with h1 h2
            rw [← h1, ← h2]
            exact ⟨rfl, setAdd_nodup hn⟩
        · split at hr
          · simp at hr
          · rename_i current_g hg
            split at hr
            · simp at hr
            · rename_i st3 hexp
              have hv3 := aStarExpand_visited _ _ _ hexp
              refine ih _ r st2 hr ?_
              dsimp only
              rw [hv3]
              exact setAdd_nodup hn

/-- `dfsMoves` only grows the visited history with fresh states, provided
the continuation does. -/
theorem dfsMoves_history {g : WaterSortGame}
    {rec : GState α → Nat → DfsSt α → Option (Bool × DfsSt α)}
    (Hrec : ∀ s2 d2 st2 r2, rec s2 d2 st2 = some r2 →
      st2.visited_history.Nodup → r2.2.visited_history.Nodup) :
    ∀ (moves : List Move) (state : GState α) (depth : Nat) (st : DfsSt α) r,
      dfsMoves g rec state depth moves st = some r →
      st.visited_history.Nodup → r.2.visited_history.Nodup := by
  intro moves
  induction moves with
  | nil =>
    intro state depth st r hr hn
    unfold dfsMoves at hr
    injection hr with hr
    rw [← hr]
    exact hn
  | cons m ms ih =>
    intro state depth st r hr hn
    unfold dfsMoves at hr
    cases happ : g.apply_move state m with
    | error e => rw [happ] at hr; simp at hr
    | ok x =>
      rw [happ] at hr
      obtain ⟨next, np⟩ := x
      dsimp only at hr
      by_cases hmem : next ∈ st.visited
      · rw [if_pos hmem] at hr
        exact ih state depth st r hr hn
      · rw [if_neg hmem] at hr
        split at hr
        · simp at hr
        · rename_i st3 hrec
          injection hr with hr
          rw [← hr]
          exact Hrec _ _ _ _ hrec (setAdd_nodup hn)
        · rename_i st3 hrec
          exact ih state depth _ r hr (Hrec _ _ _ _ hrec (setAdd_nodup hn))

/-- `dfsSearch` keeps the visited history duplicate-free. -/
theorem dfsSearch_history {g : WaterSortGame} {depth_limit : Option Nat} :
    ∀ (fuel : Nat) (state : GState α) (depth : Nat) (st : DfsSt α) r,
      dfsSearch g depth_limit fuel state depth st = some r →
      st.visited_history.Nodup → r.2.visited_history.Nodup := by
  intro fuel
  induction fuel with
  | zero => intro state depth st r hr hn; unfold dfsSearch at hr; simp at hr
  | succ fuel ih =>
    intro state depth st r hr hn
    unfold dfsSearch at hr
    split at hr
    · injection hr with hr
      rw [← hr]
      exact hn
    · split at hr
      · injection hr with hr
        rw [← hr]
        exact hn
      · exact dfsMoves_history (fun s2 d2 st2 r2 h2 => ih s2 d2 st2 r2 h2)
          _ _ _ _ _ hr hn

/-- The `explored_nodes` field a completed `dfs` reports is exactly the size
of its final visited history, which stays duplicate-free. -/
theorem dfs_explored {g : WaterSortGame} {fuel : Nat} {s : GState α}
    {depth_limit : Option Nat} {r : SearchResult} {st : DfsSt α}
    (hr : dfs g fuel s depth_limit = some (r, st)) :
    r.explored_nodes = st.visited_history.length ∧
      st.visited_history.Nodup := by
  unfold dfs at hr
  cases hsearch : dfsSearch g depth_limit fuel s 0 (dfsInit s) with
  | none => rw [hsearch] at hr; simp at hr
  | some res =>
    rw [hsearch] at hr
    obtain ⟨found, st1⟩ := res
    have hn : st1.visited_history.Nodup :=
      dfsSearch_history fuel s 0 (dfsInit s) (found, st1) hsearch
        (by unfold dfsInit; simp)
    dsimp only at hr
    split at hr
    · split at hr
      · simp at hr
      · injection hr with hr
        injection hr with h1 h2
        rw [← h1, ← h2]
        exact ⟨rfl, hn⟩
    · injection hr with hr
      injection hr with h1 h2
      rw [← h1, ← h2]
      exact ⟨rfl, hn⟩

/-- `idaMoves` only grows the global visited set with fresh states, provided
the continuation does. -/
theorem idaMoves_history {g : WaterSortGame}
    {rec : GState α → Nat → Int → IdaSt α → Option (Bool × Option Int × IdaSt α)}
    (Hrec : ∀ s2 g2 t2 st2 r2, rec s2 g2 t2 st2 = some r2 →
      st2.global_visited.Nodup → r2.2.2.global_visited.Nodup) :
    ∀ (moves : List Move) (state : GState α) (gg : Nat) (threshold : Int)
      (minT : Option Int) (st : IdaSt α) r,
      idaMoves g rec state gg threshold moves minT st = some r →
      st.global_visited.Nodup → r.2.2.global_visited.Nodup := by
  intro moves
  induction moves with
  | nil =>
    intro state gg threshold minT st r hr hn
    unfold idaMoves at hr
    injection hr with hr
    rw [← hr]
    exact hn
  | cons m ms ih =>
    intro state gg threshold minT st r hr hn
    unfold idaMoves at hr
    cases happ : g.apply_move state m with
    | error e => rw [happ] at hr; simp at hr
    | ok x =>
      rw [happ] at hr
      obtain ⟨next, np⟩ := x
      dsimp only at hr
      by_cases hmem : next ∈ st.visited
      · rw [if_pos hmem] at hr
        exact ih state gg threshold minT st r hr hn
      · rw [if_neg hmem] at hr
        split at hr
        · simp at hr
        · rename_i tt st2 hrec
          injection hr with hr
          rw [← hr]
          exact Hrec _ _ _ _ _ hrec (setAdd_nodup hn)
        · rename_i tt st2 hrec
          exact ih state gg threshold _ _ r hr
            (Hrec _ _ _ _ _ hrec (setAdd_nodup hn))

/-- The inner `search` of `ida_star` keeps the global visited set
duplicate-free. -/
theorem idaSearch_history {g : WaterSortGame} {heuristic : GState α → Int}
    {max_depth : Nat} :
    ∀ (fuel : Nat) (state : GState α) (gg : Nat) (threshold : Int) (st : IdaSt α) r,
      idaSearch g heuristic max_depth fuel state gg threshold st = some r →
      st.global_visited.Nodup → r.2.2.global_visited.Nodup := by
  intro fuel
  induction fuel with
  | zero => intro state gg threshold st r hr hn; unfold idaSearch at hr; simp at hr
  | succ fuel ih =>
    intro state gg threshold st r hr hn
    unfold idaSearch at hr
    dsimp only at hr
    split at hr
    · injection hr with hr
      rw [← hr]
      exact hn
    · split at hr
      · injection hr with hr
        rw [← hr]
        exact hn
      · split at hr
        · injection hr with hr
          rw [← hr]
          exact hn
        · exact idaMoves_history (fun s2 g2 t2 st2 r2 h2 => ih s2 g2 t2 st2 r2 h2)
            _ _ _ _ _ _ _ hr hn

/-- The `explored_nodes` field a completed `idaLoop` reports is exactly the
size of its final global visited set, which stays duplicate-free. -/
theorem idaLoop_explored {g : WaterSortGame} {heuristic : GState α → Int}
    {max_depth : Nat} :
    ∀ (outer innerFuel : Nat) (initial_state : GState α) (threshold : Int)
      (st : IdaSt α) r st2,
      idaLoop g heuristic max_depth outer innerFuel initial_state threshold st =
        some (r, st2) →
      st.global_visited.Nodup →
      (r.explored_nodes = st2.global_visited.length ∧
        st2.global_visited.Nodup) := by
  intro outer
  induction outer with
  | zero =>
    intro innerFuel initial_state threshold st r st2 hr hn
    unfold idaLoop at hr
    simp at hr
  | succ outer ih =>
    intro innerFuel initial_state threshold st r st2 hr hn
    unfold idaLoop at hr
    dsimp only at hr
    split at hr
    · simp at hr
    · rename_i tt st1 hsearch
      injection hr with hr
      injection hr with h1 h2
      have hn1 := idaSearch_history innerFuel initial_state 0 threshold _ _ hsearch hn
      rw [← h1, ← h2]
      exact ⟨rfl, hn1⟩
    · rename_i tt st1 hsearch
      injection hr with hr
      injection hr with h1 h2
      have hn1 := idaSearch_history innerFuel initial_state 0 threshold _ _ hsearch hn
      rw [← h1, ← h2]
      exact ⟨rfl, hn1⟩
    · rename_i tt t2 st1 hsearch
      exact ih innerFuel initial_state t2 st1 r st2 hr
        (idaSearch_history innerFuel initial_state 0 threshold _ _ hsearch hn)

/-- C8 (amended). For `bfs`, `dfs` and `ida_star`, `explored_nodes` is the
number of distinct states ever inserted into the visited history
(`visited_history` for `bfs` and `dfs`, `global_visited` for `ida_star`); for
`a_star` it is instead the number of distinct states popped from the heap and
finalized into the closed set — not the number of states ever recorded in a
tracking structure such as the `g_cost` map (see the counterexample). -/
theorem claim_C8 (g : WaterSortGame) (heuristic : GState α → Int) (fuel : Nat)
    (s : GState α) :
    (∀ r st, bfs g fuel s = some (r, st) →
      r.explored_nodes = st.visited_history.length ∧ st.visited_history.Nodup) ∧
    (∀ r st, a_star g heuristic fuel s = some (r, st) →
      r.explored_nodes = st.visited.length ∧ st.visited.Nodup) ∧
    (∀ depth_limit r st, dfs g fuel s depth_limit = some (r, st) →
      r.explored_nodes = st.visited_history.length ∧ st.visited_history.Nodup) ∧
    (∀ outerFuel innerFuel max_depth r st,
      ida_star g heuristic outerFuel innerFuel s max_depth = some (r, st) →
      r.explored_nodes = st.global_visited.length ∧ st.global_visited.Nodup) := by
  refine ⟨?_, ?_, ?_, ?_⟩
  · intro r st hr
    unfold bfs at hr
    split at hr
    · injection hr with hr
      injection hr with h1 h2
      rw [← h1, ← h2]
      exact ⟨rfl, by unfold bfsInit; simp⟩
    · exact bfsLoop_explored fuel (bfsInit s) r st hr (by unfold bfsInit; simp)
  · intro r st hr
    unfold a_star at hr
    exact aStarLoop_explored fuel (aStarInit heuristic s) r st hr
      (by unfold aStarInit; simp)
  · intro depth_limit r st hr
    exact dfs_explored hr
  · intro outerFuel innerFuel max_depth r st hr
    unfold ida_star at hr
    exact idaLoop_explored outerFuel innerFuel s (heuristic s) _ r st hr (by simp)

/-- C8 is false as stated for `a_star`: on this one-move-from-goal state the
run completes with `explored_nodes = 2` (initial state and goal, the two
finalized states), while 7 distinct states were recorded in the `g_cost`
tracking structure over the run. -/
theorem claim_C8_counterexample :
    (a_star (WaterSortGame.mk 5 3 4) entropy_heuristic 100
        ([[0,0,0,0],[1,1,1,1],[2,2,2],[2],[]] : GState Nat)).map
      (fun p => (p.1.explored_nodes, (p.2.g_cost.map Prod.fst).dedup.length)) =
        some (2, 7) ∧ (2 : Nat) ≠ 7 := by
  exact ⟨by rfl, by decide⟩

/-- Witness for the amended C8: concrete successful runs of all four
algorithms at an already-solved state. -/
theorem claim_C8_witness :
    ((SearchResult.mk true [] 1 0 1 0).explored_nodes =
        ([[[0,0,0,0],[1,1,1,1],[2,2,2,2],[],[]]] : List (GState Nat)).length ∧
      ([[[0,0,0,0],[1,1,1,1],[2,2,2,2],[],[]]] : List (GState Nat)).Nodup) ∧
    ((SearchResult.mk true [] 1 0 1 0).explored_nodes =
        ([[[0,0,0,0],[1,1,1,1],[2,2,2,2],[],[]]] : List (GState Nat)).length ∧
      ([[[0,0,0,0],[1,1,1,1],[2,2,2,2],[],[]]] : List (GState Nat)).Nodup) ∧
    ((SearchResult.mk true [] 1 0 1 0).explored_nodes =
        ([[[0,0,0,0],[1,1,1,1],[2,2,2,2],[],[]]] : List (GState Nat)).length ∧
      ([[[0,0,0,0],[1,1,1,1],[2,2,2,2],[],[]]] : List (GState Nat)).Nodup) ∧
    ((SearchResult.mk true [] 1 0 1 0).explored_nodes =
        ([[[0,0,0,0],[1,1,1,1],[2,2,2,2],[],[]]] : List (GState Nat)).length ∧
      ([[[0,0,0,0],[1,1,1,1],[2,2,2,2],[],[]]] : List (GState Nat)).Nodup) :=
  ⟨(claim_C8 (WaterSortGame.mk 5 3 4) entropy_heuristic 10
      ([[0,0,0,0],[1,1,1,1],[2,2,2,2],[],[]] : GState Nat)).1
    ⟨true, [], 1, 0, 1, 0⟩
    { frontier := [[[0,0,0,0],[1,1,1,1],[2,2,2,2],[],[]]]
      parents := [([[0,0,0,0],[1,1,1,1],[2,2,2,2],[],[]], none)]
      moves_taken := [([[0,0,0,0],[1,1,1,1],[2,2,2,2],[],[]], none)]
      visited := [[[0,0,0,0],[1,1,1,1],[2,2,2,2],[],[]]]
      visited_history := [[[0,0,0,0],[1,1,1,1],[2,2,2,2],[],[]]]
      expanded := 0
      max_frontier := 1 } (by rfl),
   (claim_C8 (WaterSortGame.mk 5 3 4) entropy_heuristic 10
      ([[0,0,0,0],[1,1,1,1],[2,2,2,2],[],[]] : GState Nat)).2.1
    ⟨true, [], 1, 0, 1, 0⟩
    { open_heap := []
      g_cost := [([[0,0,0,0],[1,1,1,1],[2,2,2,2],[],[]], 0)]
      parents := [([[0,0,0,0],[1,1,1,1],[2,2,2,2],[],[]], none)]
      moves_taken := [([[0,0,0,0],[1,1,1,1],[2,2,2,2],[],[]], none)]
      visited := [[[0,0,0,0],[1,1,1,1],[2,2,2,2],[],[]]]
      expanded := 0
      entry_counter := 0
      max_frontier := 1 } (by rfl),
   (claim_C8 (WaterSortGame.mk 5 3 4) entropy_heuristic 10
      ([[0,0,0,0],[1,1,1,1],[2,2,2,2],[],[]] : GState Nat)).2.2.1
    none ⟨true, [], 1, 0, 1, 0⟩
    { visited := [[[0,0,0,0],[1,1,1,1],[2,2,2,2],[],[]]]
      visited_history := [[[0,0,0,0],[1,1,1,1],[2,2,2,2],[],[]]]
      parents := [([[0,0,0,0],[1,1,1,1],[2,2,2,2],[],[]], none)]
      moves_taken := [([[0,0,0,0],[1,1,1,1],[2,2,2,2],[],[]], none)]
      expanded := 0
      max_frontier := 1
      success_state := some [[0,0,0,0],[1,1,1,1],[2,2,2,2],[],[]] } (by rfl),
   (claim_C8 (WaterSortGame.mk 5 3 4) entropy_heuristic 10
      ([[0,0,0,0],[1,1,1,1],[2,2,2,2],[],[]] : GState Nat)).2.2.2
    5 10 200 ⟨true, [], 1, 0, 1, 0⟩
    { expanded := 0
      max_frontier := 1
      global_visited := [[[0,0,0,0],[1,1,1,1],[2,2,2,2],[],[]]]
      visited := [[[0,0,0,0],[1,1,1,1],[2,2,2,2],[],[]]]
      path := [] } (by rfl)⟩

/-- Replaying a concatenation is sequential replaying. -/
theorem replay_append {g : WaterSortGame} :
    ∀ (l1 l2 : List Move) (s : GState α),
      replay g s (l1 ++ l2) = (replay g s l1).bind fun t => replay g t l2 := by
  intro l1
  induction l1 with
  | nil => intro l2 s; simp [replay]
  | cons m ms ih =>
    intro l2 s
    rw [List.cons_append]
    conv_lhs => unfold replay
    conv_rhs => rw [show replay g s (m :: ms) = (match g.apply_move s m with
      | .error _ => none
      | .ok (s2, _) => replay g s2 ms) from rfl]
    cases happ : g.apply_move s m with
    | error e => simp
    | ok x =>
      obtain ⟨s2, p⟩ := x
      dsimp only
      exact ih l2 s2

/-- Extending a replayed path by one successful move. -/
theorem replay_snoc {g : WaterSortGame} {s t u : GState α} {l : List Move} {m : Move}
    {p : Nat} (hl : replay g s l = some t) (hm : g.apply_move t m = .ok (u, p)) :
    replay g s (l ++ [m]) = some u := by
  rw [replay_append, hl, Option.some_bind]
  unfold replay
  rw [hm]
  rfl

/-- A chain's state list ends at its state and counts one more than its move
list. -/
theorem chain_length {P : List (GState α × Option (GState α))}
    {M : List (GState α × Option Move)} {x : GState α} {l : List Move}
    {ns : List (GState α)} (h : Chain P M x l ns) : ns.length = l.length + 1 := by
  induction h with
  | base x hx => rfl
  | step x p m l ns hm hp hc ih => simp [ih]

/-- Every state on a chain has entries in both maps. -/
theorem chain_nodes_keys {P : List (GState α × Option (GState α))}
    {M : List (GState α × Option Move)} {x : GState α} {l : List Move}
    {ns : List (GState α)} (h : Chain P M x l ns) :
    ∀ n ∈ ns, (∃ v, lookup M n = some v) := by
  induction h with
  | base x hx =>
    intro n hn
    rw [List.mem_singleton] at hn
    rw [hn]
    exact ⟨none, hx⟩
  | step x p m l ns hm hp hc ih =>
    intro n hn
    rw [List.mem_append, List.mem_singleton] at hn
    cases hn with
    | inl hn => exact ih n hn
    | inr hn => rw [hn]; exact ⟨some m, hm⟩

/-- Chains are stable under shadowing a key that is not on the chain. -/
theorem chain_cons {P : List (GState α × Option (GState α))}
    {M : List (GState α × Option Move)} {x : GState α} {l : List Move}
    {ns : List (GState α)} (h : Chain P M x l ns) (y : GState α)
    (pv : Option (GState α)) (mv : Option Move) (hy : y ∉ ns) :
    Chain ((y, pv) :: P) ((y, mv) :: M) x l ns := by
  induction h with
  | base x hx =>
    have hxy : x ≠ y := fun he => hy (by rw [he]; exact List.mem_singleton_self y)
    refine Chain.base x ?_
    unfold lookup
    rw [if_neg hxy]
    exact hx
  | step x p m l ns hm hp hc ih =>
    have hxy : x ≠ y := fun he =>
      hy (by rw [he]; exact List.mem_append_right _ (List.mem_singleton_self y))
    have hns : y ∉ ns := fun hin => hy (List.mem_append_left _ hin)
    refine Chain.step x p m l ns ?_ ?_ (ih hns)
    · unfold lookup
      rw [if_neg hxy]
      exact hm
    · unfold lookup
      rw [if_neg hxy]
      exact hp

/-- `reconstruct_moves` recovers exactly the chain's move list when given
enough fuel. -/
theorem reconstruct_of_chain {P : List (GState α × Option (GState α))}
    {M : List (GState α × Option Move)} {x : GState α} {l : List Move}
    {ns : List (GState α)} (h : Chain P M x l ns) :
    ∀ (fuel : Nat) (acc : List Move), l.length + 1 ≤ fuel →
      reconstruct_moves P M fuel x acc = some (acc ++ l.reverse).reverse := by
  induction h with
  | base x hx =>
    intro fuel acc hfuel
    cases fuel with
    | zero => omega
    | succ fuel =>
      unfold reconstruct_moves
      rw [hx]
      simp
  | step x p m l ns hm hp hc ih =>
    intro fuel acc hfuel
    cases fuel with
    | zero => omega
    | succ fuel =>
      unfold reconstruct_moves
      rw [hm]
      dsimp only
      rw [hp]
      dsimp only
      have := ih fuel (acc ++ [m]) (by simp at hfuel; omega)
      rw [this]
      simp

/-- The move loop of `ida_star` keeps the shared path faithful: a successful
return carries a path that replays from the initial state to a goal, and a
failed return restores the path, provided the recursive continuation does. -/
theorem idaMoves_sound {g : WaterSortGame} {init : GState α}
    {rec : GState α → Nat → Int → IdaSt α → Option (Bool × Option Int × IdaSt α)}
    (Hrec : ∀ s2 g2 t2 st2 r2, rec s2 g2 t2 st2 = some r2 →
      replay g init st2.path = some s2 →
      (r2.1 = true → ∃ t, replay g init r2.2.2.path = some t ∧
        g.is_goal_state t = true) ∧
      (r2.1 = false → r2.2.2.path = st2.path)) :
    ∀ (moves : List Move) (state : GState α) (gg : Nat) (threshold : Int)
      (minT : Option Int) (st : IdaSt α) r,
      idaMoves g rec state gg threshold moves minT st = some r →
      replay g init st.path = some state →
      (r.1 = true → ∃ t, replay g init r.2.2.path = some t ∧
        g.is_goal_state t = true) ∧
      (r.1 = false → r.2.2.path = st.path) := by
  intro moves
  induction moves with
  | nil =>
    intro state gg threshold minT st r hr hpath
    unfold idaMoves at hr
    injection hr with hr
    rw [← hr]
    exact ⟨fun ht => by simp at ht, fun _ => rfl⟩
  | cons m ms ih =>
    intro state gg threshold minT st r hr hpath
    unfold idaMoves at hr
    cases happ : g.apply_move state m with
    | error e => rw [happ] at hr; simp at hr
    | ok x =>
      rw [happ] at hr
      obtain ⟨next, np⟩ := x
      dsimp only at hr
      by_cases hmem : next ∈ st.visited
      · rw [if_pos hmem] at hr
        exact ih state gg threshold minT st r hr hpath
      · rw [if_neg hmem] at hr
        split at hr
        · simp at hr
        · rename_i tt st2 hrec
          injection hr with hr
          rw [← hr]
          have hpath1 : replay g init (st.path ++ [m]) = some next :=
            replay_snoc hpath happ
          have := (Hrec _ _ _ _ _ hrec (by simpa using hpath1)).1 rfl
          exact ⟨fun _ => this, fun hf => by simp at hf⟩
        · rename_i tt st2 hrec
          have hpath1 : replay g init (st.path ++ [m]) = some next :=
            replay_snoc hpath happ
          have hrest := (Hrec _ _ _ _ _ hrec (by simpa using hpath1)).2 rfl
          have hpath2 : (st2.path.dropLast) = st.path := by
            rw [hrest]
            dsimp only
            exact List.dropLast_concat
          have := ih state gg threshold _ _ r hr (by dsimp only; rw [hpath2]; exact hpath)
          refine ⟨this.1, fun hf => ?_⟩
          rw [this.2 hf]
          dsimp only
          exact hpath2

/-- The inner `search` of `ida_star` is sound with respect to the shared
path. -/
theorem idaSearch_sound {g : WaterSortGame} {heuristic : GState α → Int}
    {max_depth : Nat} {init : GState α} :
    ∀ (fuel : Nat) (state : GState α) (gg : Nat) (threshold : Int) (st : IdaSt α) r,
      idaSearch g heuristic max_depth fuel state gg threshold st = some r →
      replay g init st.path = some state →
      (r.1 = true → ∃ t, replay g init r.2.2.path = some t ∧
        g.is_goal_state t = true) ∧
      (r.1 = false → r.2.2.path = st.path) := by
  intro fuel
  induction fuel with
  | zero => intro state gg threshold st r hr hpath; unfold idaSearch at hr; simp at hr
  | succ fuel ih =>
    intro state gg threshold st r hr hpath
    unfold idaSearch at hr
    dsimp only at hr
    split at hr
    · injection hr with hr
      rw [← hr]
      exact ⟨fun ht => by simp at ht, fun _ => rfl⟩
    · split at hr
      · rename_i hgoal
        injection hr with hr
        rw [← hr]
        exact ⟨fun _ => ⟨state, hpath, hgoal⟩, fun hf => by simp at hf⟩
      · split at hr
        · injection hr with hr
          rw [← hr]
          exact ⟨fun ht => by simp at ht, fun _ => rfl⟩
        · have := idaMoves_sound (fun s2 g2 t2 st2 r2 h2 hp2 => ih s2 g2 t2 st2 r2 h2 hp2)
            (g.get_valid_moves state) state gg threshold none
            { st with expanded := st.expanded + 1 } r hr (by dsimp only; exact hpath)
          exact ⟨this.1, fun hf => by rw [this.2 hf]⟩

/-- The threshold loop of `ida_star` is sound. -/
theorem idaLoop_sound {g : WaterSortGame} {heuristic : GState α → Int}
    {max_depth : Nat} :
    ∀ (outer innerFuel : Nat) (initial_state : GState α) (threshold : Int)
      (st : IdaSt α) r st2,
      idaLoop g heuristic max_depth outer innerFuel initial_state threshold st =
        some (r, st2) →
      replay g initial_state st.path = some initial_state →
      r.success = true →
      ∃ t, replay g initial_state r.moves = some t ∧ g.is_goal_state t = true ∧
        r.depth = r.moves.length := by
  intro outer
  induction outer with
  | zero =>
    intro innerFuel initial_state threshold st r st2 hr hpath hs
    unfold idaLoop at hr
    simp at hr
  | succ outer ih =>
    intro innerFuel initial_state threshold st r st2 hr hpath hs
    unfold idaLoop at hr
    dsimp only at hr
    split at hr
    · simp at hr
    · rename_i tt st1 hsearch
      injection hr with hr
      injection hr with h1 h2
      have hsound := (idaSearch_sound innerFuel initial_state 0 threshold _ _ hsearch
        (by dsimp only; exact hpath)).1 rfl
      obtain ⟨t, hrep, hgoal⟩ := hsound
      refine ⟨t, ?_, hgoal, ?_⟩
      · rw [← h1]
        exact hrep
      · rw [← h1]
    · rename_i tt st1 hsearch
      injection hr with hr
      injection hr with h1 h2
      rw [← h1] at hs
      simp at hs
    · rename_i tt t2 st1 hsearch
      have hrestore := (idaSearch_sound innerFuel initial_state 0 threshold _ _ hsearch
        (by dsimp only; exact hpath)).2 rfl
      exact ih innerFuel initial_state t2 st1 r st2 hr
        (by rw [hrestore]; dsimp only; exact hpath) hs

/-- Recording a state outside `visited` does not disturb well-recorded
states whose chains stay inside `visited`. -/
theorem goodRec_extend {g : WaterSortGame} {init : GState α}
    {P : List (GState α × Option (GState α))} {M : List (GState α × Option Move)}
    {V : List (GState α)} {x y : GState α} (h : GoodRec g init P M V x)
    (hy : y ∉ V) (pv : Option (GState α)) (mv : Option Move) (V2 : List (GState α))
    (hV : ∀ n ∈ V, n ∈ V2) :
    GoodRec g init ((y, pv) :: P) ((y, mv) :: M) V2 x := by
  obtain ⟨l, ns, hc, hrep, hlen, hns⟩ := h
  have hyn : y ∉ ns := fun hin => hy (hns y hin)
  refine ⟨l, ns, chain_cons hc y pv mv hyn, hrep, ?_, fun n hn => hV n (hns n hn)⟩
  simp only [List.length_cons]
  omega

/-- A fresh successor recorded from a well-recorded state becomes
well-recorded. -/
theorem goodRec_new {g : WaterSortGame} {init : GState α}
    {P : List (GState α × Option (GState α))} {M : List (GState α × Option Move)}
    {V : List (GState α)} {current next : GState α} {m : Move} {np : Nat}
    (h : GoodRec g init P M V current) (hnext : next ∉ V)
    (happ : g.apply_move current m = .ok (next, np)) :
    GoodRec g init ((next, some current) :: P) ((next, some m) :: M)
      (setAdd V next) next := by
  obtain ⟨l, ns, hc, hrep, hlen, hns⟩ := h
  have hyn : next ∉ ns := fun hin => hnext (hns next hin)
  refine ⟨l ++ [m], ns ++ [next], ?_, replay_snoc hrep happ, ?_, ?_⟩
  · refine Chain.step next current m l ns ?_ ?_ (chain_cons hc next (some current) (some m) hyn)
    · unfold lookup
      rw [if_pos rfl]
    · unfold lookup
      rw [if_pos rfl]
  · have hl1 : (l ++ [m]).length = l.length + 1 := by simp
    rw [hl1, List.length_cons]
    omega
  · intro n hn
    rw [List.mem_append, List.mem_singleton] at hn
    unfold setAdd
    split
    · cases hn with
      | inl hn => exact hns n hn
      | inr hn => rw [hn]; assumption
    · cases hn with
      | inl hn => exact List.mem_cons_of_mem _ (hns n hn)
      | inr hn => rw [hn]; exact List.mem_cons_self _ _

/-- The expansion loop of `bfs` keeps every frontier state (and the state
being expanded) well-recorded. -/
theorem bfsExpand_chains {g : WaterSortGame} {init current : GState α} :
    ∀ (moves : List Move) (st : BfsSt α) st2,
      bfsExpand g current moves st = some st2 →
      GoodRec g init st.parents st.moves_taken st.visited current →
      (∀ x ∈ st.frontier, GoodRec g init st.parents st.moves_taken st.visited x) →
      (∀ x ∈ st2.frontier, GoodRec g init st2.parents st2.moves_taken st2.visited x) := by
  intro moves
  induction moves with
  | nil =>
    intro st st2 hr hcur hfr
    unfold bfsExpand at hr
    injection hr with hr
    rw [← hr]
    exact hfr
  | cons m ms ih =>
    intro st st2 hr hcur hfr
    unfold bfsExpand at hr
    cases happ : g.apply_move current m with
    | error e => rw [happ] at hr; simp at hr
    | ok x =>
      rw [happ] at hr
      obtain ⟨next, np⟩ := x
      dsimp only at hr
      by_cases hmem : next ∈ st.visited
      · rw [if_pos hmem] at hr
        exact ih st st2 hr hcur hfr
      · rw [if_neg hmem] at hr
        refine ih _ st2 hr ?_ ?_
        · exact goodRec_extend hcur hmem (some current) (some m) _
            (fun n hn => by unfold setAdd; split; exact hn; exact List.mem_cons_of_mem _ hn)
        · intro x hx
          dsimp only at hx ⊢
          rw [List.mem_append, List.mem_singleton] at hx
          cases hx with
          | inl hx =>
            exact goodRec_extend (hfr x hx) hmem (some current) (some m) _
              (fun n hn => by unfold setAdd; split; exact hn; exact List.mem_cons_of_mem _ hn)
          | inr hx =>
            rw [hx]
            exact goodRec_new hcur hmem happ

/-- The `bfs` loop is sound: a successful result replays to a goal and its
depth is the move count. -/
theorem bfsLoop_sound {g : WaterSortGame} {init : GState α} :
    ∀ (fuel : Nat) (st : BfsSt α) r st2,
      bfsLoop g fuel st = some (r, st2) →
      (∀ x ∈ st.frontier, GoodRec g init st.parents st.moves_taken st.visited x) →
      r.success = true →
      ∃ t, replay g init r.moves = some t ∧ g.is_goal_state t = true ∧
        r.depth = r.moves.length := by
  intro fuel
  induction fuel with
  | zero => intro st r st2 hr hfr hs; unfold bfsLoop at hr; simp at hr
  | succ fuel ih =>
    intro st r st2 hr hfr hs
    unfold bfsLoop at hr
    cases hf : st.frontier with
    | nil =>
      rw [hf] at hr
      injection hr with hr
      injection hr with h1 h2
      rw [← h1] at hs
      simp at hs
    | cons current rest =>
      rw [hf] at hr
      dsimp only at hr
      split at hr
      · rename_i hgoal
        obtain ⟨l, ns, hc, hrep, hlen, hns⟩ :=
          hfr current (by rw [hf]; exact List.mem_cons_self _ _)
        have hrec := reconstruct_of_chain hc (st.parents.length + 1) [] (by omega)
        simp only [List.nil_append, List.reverse_reverse] at hrec
        rw [show ({ st with frontier := rest, expanded := st.expanded + 1 } :
          BfsSt α).parents = st.parents from rfl] at hr
        rw [show ({ st with frontier := rest, expanded := st.expanded + 1 } :
          BfsSt α).moves_taken = st.moves_taken from rfl] at hr
        rw [hrec] at hr
        dsimp only at hr
        injection hr with hr
        injection hr with h1 h2
        rw [← h1]
        exact ⟨current, hrep, hgoal, rfl⟩
      · split at hr
        · simp at hr
        · rename_i st3 hexp
          refine ih _ r st2 hr ?_ hs
          intro x hx
          dsimp only at hx ⊢
          have := bfsExpand_chains (g.get_valid_moves current) _ st3 hexp
            (by
              have := hfr current (by rw [hf]; exact List.mem_cons_self _ _)
              exact this)
            (by
              intro y hy
              dsimp only at hy
              exact hfr y (by rw [hf]; exact List.mem_cons_of_mem _ hy))
          exact this x hx

/-- `bfs` is sound. -/
theorem bfs_sound {g : WaterSortGame} {init : GState α} {fuel : Nat}
    {r : SearchResult} {st : BfsSt α} (hr : bfs g fuel init = some (r, st))
    (hs : r.success = true) :
    ∃ t, replay g init r.moves = some t ∧ g.is_goal_state t = true ∧
      r.depth = r.moves.length := by
  unfold bfs at hr
  split at hr
  · rename_i hgoal
    injection hr with hr
    injection hr with h1 h2
    rw [← h1]
    exact ⟨init, rfl, hgoal, rfl⟩
  · refine bfsLoop_sound fuel (bfsInit init) r st hr ?_ hs
    intro x hx
    unfold bfsInit at hx ⊢
    simp only [List.mem_singleton] at hx
    rw [hx]
    refine ⟨[], [init], Chain.base init ?_, rfl, by simp, ?_⟩
    · unfold lookup
      rw [if_pos rfl]
    · intro n hn
      simpa using hn

/-- The move loop of `dfs` extends the maps conservatively (chains through
the entry visited set survive, the parent map only grows, the visited set
only grows towards a success) and, on success, leaves a recorded goal chain
that replays from the initial state, provided the recursive continuation
does the same and restores `visited` on failure. -/
theorem dfsMoves_sound {g : WaterSortGame} {init : GState α}
    {rec : GState α → Nat → DfsSt α → Option (Bool × DfsSt α)}
    (Hrec : ∀ s2 d2 st2 r2, rec s2 d2 st2 = some r2 →
      (st2.parents.length ≤ r2.2.parents.length ∧
       (∀ n ∈ st2.visited, n ∈ r2.2.visited) ∧
       (∀ x l2 ns2, Chain st2.parents st2.moves_taken x l2 ns2 →
         (∀ n ∈ ns2, n ∈ st2.visited) →
         Chain r2.2.parents r2.2.moves_taken x l2 ns2) ∧
       (GoodRec g init st2.parents st2.moves_taken st2.visited s2 → r2.1 = true →
         ∃ goalSt l2 ns2, r2.2.success_state = some goalSt ∧
           g.is_goal_state goalSt = true ∧
           Chain r2.2.parents r2.2.moves_taken goalSt l2 ns2 ∧
           replay g init l2 = some goalSt ∧ l2.length + 1 ≤ r2.2.parents.length) ∧
       (r2.1 = false → r2.2.visited = st2.visited))) :
    ∀ (moves : List Move) (state : GState α) (depth : Nat) (st : DfsSt α) r,
      dfsMoves g rec state depth moves st = some r →
      (st.parents.length ≤ r.2.parents.length ∧
       (∀ n ∈ st.visited, n ∈ r.2.visited) ∧
       (∀ x l2 ns2, Chain st.parents st.moves_taken x l2 ns2 →
         (∀ n ∈ ns2, n ∈ st.visited) →
         Chain r.2.parents r.2.moves_taken x l2 ns2) ∧
       (GoodRec g init st.parents st.moves_taken st.visited state → r.1 = true →
         ∃ goalSt l2 ns2, r.2.success_state = some goalSt ∧
           g.is_goal_state goalSt = true ∧
           Chain r.2.parents r.2.moves_taken goalSt l2 ns2 ∧
           replay g init l2 = some goalSt ∧ l2.length + 1 ≤ r.2.parents.length)) := by
  intro moves
  induction moves with
  | nil =>
    intro state depth st r hr
    unfold dfsMoves at hr
    injection hr with hr
    rw [← hr]
    exact ⟨Nat.le_refl _, fun n hn => hn, fun x l2 ns2 hc _ => hc,
      fun _ ht => by simp at ht⟩
  | cons m ms ih =>
    intro state depth st r hr
    unfold dfsMoves at hr
    cases happ : g.apply_move state m with
    | error e => rw [happ] at hr; simp at hr
    | ok x =>
      rw [happ] at hr
      obtain ⟨next, np⟩ := x
      dsimp only at hr
      by_cases hmem : next ∈ st.visited
      · rw [if_pos hmem] at hr
        exact ih state depth st r hr
      · rw [if_neg hmem] at hr
        split at hr
        · simp at hr
        · -- recursive call succeeded
          rename_i st3 hrec
          obtain ⟨hA, hB, hC, hD, -⟩ := Hrec _ _ _ _ hrec
          injection hr with hr
          rw [← hr]
          dsimp only at hA hB hC hD ⊢
          refine ⟨by simp only [List.length_cons] at hA; omega,
            fun n hn => hB n (by
              unfold setAdd
              split
              · exact hn
              · exact List.mem_cons_of_mem _ hn), ?_, ?_⟩
          · intro x l2 ns2 hc hns
            have hnext_ns : next ∉ ns2 := fun hin => hmem (hns next hin)
            refine hC x l2 ns2 (chain_cons hc next (some state) (some m) hnext_ns) ?_
            intro n hn
            unfold setAdd
            split
            · exact hns n hn
            · exact List.mem_cons_of_mem _ (hns n hn)
          · intro hgood _
            refine hD ?_ rfl
            exact goodRec_new hgood hmem happ
        · -- recursive call failed; `visited` is restored and we continue
          rename_i st3 hrec
          obtain ⟨hA, hB, hC, hD, hRes⟩ := Hrec _ _ _ _ hrec
          have hv3 : st3.visited = setAdd st.visited next := hRes rfl
          have hv3e : st3.visited.erase next = st.visited := by
            rw [hv3]; exact erase_setAdd hmem
          obtain ⟨ihA, ihB, ihC, ihD⟩ := ih state depth _ r hr
          dsimp only at ihA ihB ihC ihD
          rw [hv3e] at ihB ihC ihD
          have hext : ∀ x l2 ns2, Chain st.parents st.moves_taken x l2 ns2 →
              (∀ n ∈ ns2, n ∈ st.visited) →
              Chain st3.parents st3.moves_taken x l2 ns2 := by
            intro x l2 ns2 hc hns
            have hnext_ns : next ∉ ns2 := fun hin => hmem (hns next hin)
            refine hC x l2 ns2 (chain_cons hc next (some state) (some m) hnext_ns) ?_
            intro n hn
            unfold setAdd
            split
            · exact hns n hn
            · exact List.mem_cons_of_mem _ (hns n hn)
          have hlenA : st.parents.length ≤ st3.parents.length := by
            simp only [List.length_cons] at hA; omega
          refine ⟨by omega, fun n hn => ihB n hn, ?_, ?_⟩
          · intro x l2 ns2 hc hns
            exact ihC x l2 ns2 (hext x l2 ns2 hc hns) hns
          · intro hgood ht
            obtain ⟨l, ns, hc, hrep, hlen, hns⟩ := hgood
            refine ihD ⟨l, ns, hext state l ns hc hns, hrep, by omega, hns⟩ ht

/-- The recursive `search` of `dfs` satisfies the same conservative-extension
and success contract. -/
theorem dfsSearch_sound {g : WaterSortGame} {init : GState α}
    {depth_limit : Option Nat} :
    ∀ (fuel : Nat) (state : GState α) (depth : Nat) (st : DfsSt α) r,
      dfsSearch g depth_limit fuel state depth st = some r →
      (st.parents.length ≤ r.2.parents.length ∧
       (∀ n ∈ st.visited, n ∈ r.2.visited) ∧
       (∀ x l2 ns2, Chain st.parents st.moves_taken x l2 ns2 →
         (∀ n ∈ ns2, n ∈ st.visited) →
         Chain r.2.parents r.2.moves_taken x l2 ns2) ∧
       (GoodRec g init st.parents st.moves_taken st.visited state → r.1 = true →
         ∃ goalSt l2 ns2, r.2.success_state = some goalSt ∧
           g.is_goal_state goalSt = true ∧
           Chain r.2.parents r.2.moves_taken goalSt l2 ns2 ∧
           replay g init l2 = some goalSt ∧ l2.length + 1 ≤ r.2.parents.length)) := by
  intro fuel
  induction fuel with
  | zero => intro state depth st r hr; unfold dfsSearch at hr; simp at hr
  | succ fuel ih =>
    intro state depth st r hr
    unfold dfsSearch at hr
    split at hr
    · rename_i hgoal
      injection hr with hr
      rw [← hr]
      refine ⟨Nat.le_refl _, fun n hn => hn, fun x l2 ns2 hc _ => hc, ?_⟩
      intro hgood _
      obtain ⟨l, ns, hc, hrep, hlen, -⟩ := hgood
      exact ⟨state, l, ns, rfl, hgoal, hc, hrep, hlen⟩
    · split at hr
      · injection hr with hr
        rw [← hr]
        exact ⟨Nat.le_refl _, fun n hn => hn, fun x l2 ns2 hc _ => hc,
          fun _ ht => by simp at ht⟩
      · have := dfsMoves_sound
          (fun s2 d2 st2 r2 h2 =>
            ⟨(ih s2 d2 st2 r2 h2).1, (ih s2 d2 st2 r2 h2).2.1,
             (ih s2 d2 st2 r2 h2).2.2.1, (ih s2 d2 st2 r2 h2).2.2.2,
             fun hf => dfsSearch_visited fuel s2 d2 st2 r2 h2 hf⟩)
          (g.get_valid_moves state) state depth
          { st with expanded := st.expanded + 1 } r hr
        exact this

/-- `dfs` is sound: a successful result replays to a goal and its depth is
the move count. -/
theorem dfs_sound {g : WaterSortGame} {init : GState α} {fuel : Nat}
    {depth_limit : Option Nat} {r : SearchResult} {st : DfsSt α}
    (hr : dfs g fuel init depth_limit = some (r, st)) (hs : r.success = true) :
    ∃ t, replay g init r.moves = some t ∧ g.is_goal_state t = true ∧
      r.depth = r.moves.length := by
  unfold dfs at hr
  cases hsearch : dfsSearch g depth_limit fuel init 0 (dfsInit init) with
  | none => rw [hsearch] at hr; simp at hr
  | some res =>
    rw [hsearch] at hr
    obtain ⟨found, st1⟩ := res
    have hgood : GoodRec g init (dfsInit init : DfsSt α).parents
        (dfsInit init : DfsSt α).moves_taken (dfsInit init : DfsSt α).visited init := by
      refine ⟨[], [init], Chain.base init ?_, rfl, by unfold dfsInit; simp, ?_⟩
      · unfold dfsInit lookup
        rw [if_pos rfl]
      · intro n hn
        unfold dfsInit
        simpa using hn
    dsimp only at hr
    cases found with
    | true =>
      obtain ⟨goalSt, l, ns, hsucc, hgoal, hchain, hrep, hlen⟩ :=
        (dfsSearch_sound fuel init 0 (dfsInit init) (true, st1) hsearch).2.2.2 hgood rfl
      dsimp only at hsucc
      rw [hsucc] at hr
      dsimp only at hr
      have hlen2 : l.length + 1 ≤ st1.parents.length := hlen
      have hrec := reconstruct_of_chain hchain (st1.parents.length + 1) [] (by omega)
      simp only [List.nil_append, List.reverse_reverse] at hrec
      rw [hrec] at hr
      dsimp only at hr
      injection hr with hr
      injection hr with h1 h2
      rw [← h1]
      exact ⟨goalSt, hrep, hgoal, rfl⟩
    | false =>
      dsimp only at hr
      injection hr with hr
      injection hr with h1 h2
      rw [← h1] at hs
      simp at hs

/-- A successful lookup means the key occurs in the association list. -/
theorem lookup_mem_keys {κ β : Type} [DecidableEq κ] :
    ∀ (d : List (κ × β)) (k : κ) (v : β), lookup d k = some v → k ∈ d.map Prod.fst := by
  intro d
  induction d with
  | nil => intro k v h; unfold lookup at h; simp at h
  | cons e rest ih =>
    intro k v h
    obtain ⟨k2, v2⟩ := e
    unfold lookup at h
    by_cases he : k = k2
    · rw [List.map_cons]
      rw [he]
      exact List.mem_cons_self _ _
    · rw [if_neg he] at h
      exact List.mem_cons_of_mem _ (ih k v h)

/-- `popMin` returns an element of the heap and keeps only heap elements. -/
theorem popMin_mem :
    ∀ (l : List (HeapEntry α)) (e : HeapEntry α) (rest : List (HeapEntry α)),
      popMin l = some (e, rest) → e ∈ l ∧ ∀ x ∈ rest, x ∈ l := by
  intro l
  induction l with
  | nil => intro e rest h; unfold popMin at h; simp at h
  | cons a as ih =>
    intro e rest h
    unfold popMin at h
    cases hp : popMin as with
    | none =>
      rw [hp] at h
      injection h with h
      injection h with h1 h2
      rw [← h1, ← h2]
      exact ⟨List.mem_cons_self _ _, by simp⟩
    | some q =>
      rw [hp] at h
      obtain ⟨m, rest2⟩ := q
      obtain ⟨hm, hrest⟩ := ih m rest2 hp
      dsimp only at h
      split at h
      · injection h with h
        injection h with h1 h2
        rw [← h1, ← h2]
        exact ⟨List.mem_cons_self _ _, fun x hx => List.mem_cons_of_mem _ hx⟩
      · injection h with h
        injection h with h1 h2
        rw [← h1, ← h2]
        refine ⟨List.mem_cons_of_mem _ hm, fun x hx => ?_⟩
        rw [List.mem_cons] at hx
        cases hx with
        | inl hx => rw [hx]; exact List.mem_cons_self _ _
        | inr hx => exact List.mem_cons_of_mem _ (hrest x hx)

/-- From the local `a_star` invariant, every cost-recorded state has a
recorded chain replaying from the initial state, with pairwise-distinct
states of cost at most its own. -/
theorem astar_chain {g : WaterSortGame} {init : GState α} {st : AStarSt α}
    (hinv : AStarInv g init st) :
    ∀ (gx : Nat) (x : GState α), lookup st.g_cost x = some gx →
      ∃ l ns, Chain st.parents st.moves_taken x l ns ∧ replay g init l = some x ∧
        ns.Nodup ∧ (∀ n ∈ ns, ∃ gn, lookup st.g_cost n = some gn ∧ gn ≤ gx) := by
  intro gx
  induction gx using Nat.strong_induction_on with
  | _ gx ih =>
    intro x hx
    rcases hinv.1 x gx hx with ⟨hxi, hg0, hm⟩ | ⟨p, m, gp, np, hm, hp, hgp, hlt, happ⟩
    · subst hxi
      refine ⟨[], [x], Chain.base x hm, rfl, by simp, ?_⟩
      intro n hn
      rw [List.mem_singleton] at hn
      rw [hn]
      exact ⟨gx, hx, Nat.le_refl _⟩
    · obtain ⟨l, ns, hc, hrep, hnd, hbound⟩ := ih gp (by omega) p hgp
      have hxns : x ∉ ns := by
        intro hin
        obtain ⟨gn, hgn, hle⟩ := hbound x hin
        rw [hx] at hgn
        injection hgn with hgn
        omega
      refine ⟨l ++ [m], ns ++ [x], Chain.step x p m l ns hm hp hc,
        replay_snoc hrep happ, ?_, ?_⟩
      · rw [List.nodup_append]
        refine ⟨hnd, by simp, ?_⟩
        intro a ha hb
        rw [List.mem_singleton] at hb
        rw [hb] at ha
        exact hxns ha
      · intro n hn
        rw [List.mem_append, List.mem_singleton] at hn
        cases hn with
        | inl hn =>
          obtain ⟨gn, hgn, hle⟩ := hbound n hn
          exact ⟨gn, hgn, by omega⟩
        | inr hn =>
          rw [hn]
          exact ⟨gx, hx, Nat.le_refl _⟩

/-- Lookup after inserting a binding: the inserted key. -/
theorem lookup_cons_self {κ β : Type} [DecidableEq κ] (d : List (κ × β)) (k : κ) (v : β) :
    lookup ((k, v) :: d) k = some v := by
  unfold lookup
  rw [if_pos rfl]

/-- Lookup after inserting a binding: any other key. -/
theorem lookup_cons_ne {κ β : Type} [DecidableEq κ] (d : List (κ × β)) (k k2 : κ) (v : β)
    (h : k2 ≠ k) : lookup ((k, v) :: d) k2 = lookup d k2 := by
  conv_lhs => unfold lookup
  rw [if_neg h]

/-- The successor loop of `a_star` preserves the local invariant and the
recorded cost of the state being expanded. -/
theorem aStarExpand_inv {g : WaterSortGame} {init : GState α}
    {heuristic : GState α → Int} {current : GState α} {current_g : Nat} :
    ∀ (moves : List Move) (st : AStarSt α) st2,
      aStarExpand g heuristic current current_g moves st = some st2 →
      AStarInv g init st → lookup st.g_cost current = some current_g →
      AStarInv g init st2 ∧ lookup st2.g_cost current = some current_g := by
  intro moves
  induction moves with
  | nil =>
    intro st st2 hr hinv hcur
    unfold aStarExpand at hr
    injection hr with hr
    rw [← hr]
    exact ⟨hinv, hcur⟩
  | cons m ms ih =>
    intro st st2 hr hinv hcur
    unfold aStarExpand at hr
    cases happ : g.apply_move current m with
    | error e => rw [happ] at hr; simp at hr
    | ok x =>
      rw [happ] at hr
      obtain ⟨next, np⟩ := x
      dsimp only at hr
      split at hr
      · exact ih st st2 hr hinv hcur
      · rename_i hskip
        -- the write branch: the new cost strictly improves, so `next` is
        -- distinct from `current` and from `init`
        have hnext_cur : next ≠ current := by
          intro he
          rw [he, hcur] at hskip
          simp at hskip
        have hnext_init : next ≠ init := by
          intro he
          rw [he, hinv.2.1] at hskip
          simp at hskip
        have hnext_better : ∀ gn, lookup st.g_cost next = some gn →
            current_g + 1 < gn := by
          intro gn hgn
          rw [hgn] at hskip
          by_contra hle
          refine hskip ?_
          simp only [decide_eq_true_eq]
          omega
        refine ih _ st2 hr ⟨?_, ?_, ?_, ?_⟩ ?_
        · intro y gy hy
          dsimp only at hy ⊢
          by_cases hynext : y = next
          · subst hynext
            rw [lookup_cons_self] at hy
            injection hy with hy
            refine Or.inr ⟨current, m, current_g, np,
              lookup_cons_self _ _ _, lookup_cons_self _ _ _, ?_, by omega, happ⟩
            rw [lookup_cons_ne _ _ _ _ hnext_cur.symm]
            · exact hcur
          · rw [lookup_cons_ne _ _ _ _ hynext] at hy
            rcases hinv.1 y gy hy with ⟨hyi, hg0, hmv⟩ | ⟨p, m2, gp, np2, hmv, hpv, hgp, hlt, happ2⟩
            · refine Or.inl ⟨hyi, hg0, ?_⟩
              rw [lookup_cons_ne _ _ _ _ hynext]
              exact hmv
            · by_cases hpnext : p = next
              · subst hpnext
                have hbet := hnext_better gp hgp
                refine Or.inr ⟨p, m2, current_g + 1, np2, ?_, ?_, lookup_cons_self _ _ _,
                  by omega, happ2⟩
                · rw [lookup_cons_ne _ _ _ _ hynext]
                  exact hmv
                · rw [lookup_cons_ne _ _ _ _ hynext]
                  exact hpv
              · refine Or.inr ⟨p, m2, gp, np2, ?_, ?_, ?_, hlt, happ2⟩
                · rw [lookup_cons_ne _ _ _ _ hynext]
                  exact hmv
                · rw [lookup_cons_ne _ _ _ _ hynext]
                  exact hpv
                · rw [lookup_cons_ne _ _ _ _ hpnext]
                  exact hgp
        · dsimp only
          rw [lookup_cons_ne _ _ _ _ hnext_init.symm]
          · exact hinv.2.1
        · intro e he
          dsimp only at he ⊢
          by_cases henext : e.2.2 = next
          · rw [henext]
            exact ⟨current_g + 1, lookup_cons_self _ _ _⟩
          · rw [List.mem_cons] at he
            cases he with
            | inl he => rw [he] at henext; simp at henext
            | inr he =>
              obtain ⟨gx, hgx⟩ := hinv.2.2.1 e he
              rw [lookup_cons_ne _ _ _ _ henext]
              exact ⟨gx, hgx⟩
        · dsimp only
          rw [List.length_cons, List.length_cons, hinv.2.2.2]
        · dsimp only
          rw [lookup_cons_ne _ _ _ _ hnext_cur.symm]
          · exact hcur

/-- The `a_star` loop is sound: under the local invariant, a successful
result replays to a goal and its depth is the move count. -/
theorem aStarLoop_sound {g : WaterSortGame} {init : GState α}
    {heuristic : GState α → Int} :
    ∀ (fuel : Nat) (st : AStarSt α) r st2,
      aStarLoop g heuristic fuel st = some (r, st2) → AStarInv g init st →
      r.success = true →
      ∃ t, replay g init r.moves = some t ∧ g.is_goal_state t = true ∧
        r.depth = r.moves.length := by
  intro fuel
  induction fuel with
  | zero => intro st r st2 hr hinv hs; unfold aStarLoop at hr; simp at hr
  | succ fuel ih =>
    intro st r st2 hr hinv hs
    unfold aStarLoop at hr
    cases hpop : popMin st.open_heap with
    | none =>
      rw [hpop] at hr
      injection hr with hr
      injection hr with h1 h2
      rw [← h1] at hs
      simp at hs
    | some q =>
      rw [hpop] at hr
      obtain ⟨⟨f, cnt, current⟩, heap1⟩ := q
      obtain ⟨hcur_mem, hheap1⟩ := popMin_mem st.open_heap _ _ hpop
      have hinv1 : AStarInv g init { st with open_heap := heap1 } :=
        ⟨hinv.1, hinv.2.1, fun e he => hinv.2.2.1 e (hheap1 e he), hinv.2.2.2⟩
      dsimp only at hr
      by_cases hmem : current ∈ st.visited
      · rw [if_pos hmem] at hr
        exact ih _ r st2 hr hinv1 hs
      · rw [if_neg hmem] at hr
        split at hr
        · rename_i hgoal
          obtain ⟨gcur, hgcur⟩ := hinv.2.2.1 _ hcur_mem
          obtain ⟨l, ns, hchain, hrep, hnd, -⟩ := astar_chain hinv gcur current hgcur
          have hkeys : ∀ n ∈ ns, n ∈ st.moves_taken.map Prod.fst := by
            intro n hn
            obtain ⟨v, hv⟩ := chain_nodes_keys hchain n hn
            exact lookup_mem_keys _ _ _ hv
          have hlen : l.length + 1 ≤ st.parents.length := by
            have h1 : ns.length = l.length + 1 := chain_length hchain
            have h2 : ns.length ≤ st.moves_taken.length := by
              calc ns.length ≤ (st.moves_taken.map Prod.fst).length :=
                    (List.subperm_of_subset hnd hkeys).length_le
                _ = st.moves_taken.length := List.length_map _ _
            rw [hinv.2.2.2]
            omega
          have hrec := reconstruct_of_chain hchain (st.parents.length + 1) [] (by omega)
          simp only [List.nil_append, List.reverse_reverse] at hrec
          rw [show ({ st with open_heap := heap1, visited := setAdd st.visited current } :
            AStarSt α).parents = st.parents from rfl,
            show ({ st with open_heap := heap1, visited := setAdd st.visited current } :
            AStarSt α).moves_taken = st.moves_taken from rfl] at hr
          rw [hrec] at hr
          dsimp only at hr
          injection hr with hr
          injection hr with h1 h2
          rw [← h1]
          exact ⟨current, hrep, hgoal, rfl⟩
        · split at hr
          · simp at hr
          · rename_i current_g hcurg
            split at hr
            · simp at hr
            · rename_i st3 hexp
              have hinv2 : AStarInv g init
                  { st with open_heap := heap1, visited := setAdd st.visited current } :=
                ⟨hinv1.1, hinv1.2.1, hinv1.2.2.1, hinv1.2.2.2⟩
              obtain ⟨hinv3, -⟩ := aStarExpand_inv (g.get_valid_moves current) _ st3 hexp
                (by exact ⟨hinv2.1, hinv2.2.1, hinv2.2.2.1, hinv2.2.2.2⟩) (by exact hcurg)
              exact ih _ r st2 hr ⟨hinv3.1, hinv3.2.1, hinv3.2.2.1, hinv3.2.2.2⟩ hs

/-- C3. For every valid initial state, any successful `SearchResult` of
`bfs`, `dfs`, `a_star` or `ida_star` carries a move list that replays from
the initial state (every `apply_move` step succeeding) to a state satisfying
`is_goal_state`, and its `depth` equals the number of moves. -/
theorem claim_C3 (g : WaterSortGame) (heuristic : GState α → Int) (s : GState α)
    (hval : g.is_valid_state s = true) :
    (∀ fuel r st, bfs g fuel s = some (r, st) → r.success = true →
      ∃ t, replay g s r.moves = some t ∧ g.is_goal_state t = true ∧
        r.depth = r.moves.length) ∧
    (∀ fuel depth_limit r st, dfs g fuel s depth_limit = some (r, st) →
      r.success = true →
      ∃ t, replay g s r.moves = some t ∧ g.is_goal_state t = true ∧
        r.depth = r.moves.length) ∧
    (∀ fuel r st, a_star g heuristic fuel s = some (r, st) → r.success = true →
      ∃ t, replay g s r.moves = some t ∧ g.is_goal_state t = true ∧
        r.depth = r.moves.length) ∧
    (∀ outerFuel innerFuel max_depth r st,
      ida_star g heuristic outerFuel innerFuel s max_depth = some (r, st) →
      r.success = true →
      ∃ t, replay g s r.moves = some t ∧ g.is_goal_state t = true ∧
        r.depth = r.moves.length) := by
  refine ⟨?_, ?_, ?_, ?_⟩
  · intro fuel r st hr hs
    exact bfs_sound hr hs
  · intro fuel depth_limit r st hr hs
    exact dfs_sound hr hs
  · intro fuel r st hr hs
    unfold a_star at hr
    refine aStarLoop_sound fuel _ r st hr ?_ hs
    refine ⟨?_, ?_, ?_, ?_⟩
    · intro y gy hy
      unfold aStarInit at hy
      dsimp only at hy
      by_cases hys : y = s
      · subst hys
        rw [lookup_cons_self] at hy
        injection hy with hy
        exact Or.inl ⟨rfl, hy.symm, by unfold aStarInit; exact lookup_cons_self _ _ _⟩
      · rw [lookup_cons_ne _ _ _ _ hys] at hy
        unfold lookup at hy
        simp at hy
    · unfold aStarInit
      exact lookup_cons_self _ _ _
    · intro e he
      unfold aStarInit at he
      dsimp only at he
      rw [List.mem_singleton] at he
      rw [he]
      exact ⟨0, by unfold aStarInit; exact lookup_cons_self _ _ _⟩
    · rfl
  · intro outerFuel innerFuel max_depth r st hr hs
    unfold ida_star at hr
    exact idaLoop_sound outerFuel innerFuel s (heuristic s) _ r st hr rfl hs

/-- Witness for C3: concrete successful runs of all four algorithms on an
already-solved valid state. -/
theorem claim_C3_witness :
    (∃ t, replay (WaterSortGame.mk 5 3 4)
        ([[0,0,0,0],[1,1,1,1],[2,2,2,2],[],[]] : GState Nat)
        (SearchResult.mk true [] 1 0 1 0).moves = some t ∧
      (WaterSortGame.mk 5 3 4).is_goal_state t = true ∧
      (SearchResult.mk true [] 1 0 1 0).depth =
        (SearchResult.mk true [] 1 0 1 0).moves.length) ∧
    (∃ t, replay (WaterSortGame.mk 5 3 4)
        ([[0,0,0,0],[1,1,1,1],[2,2,2,2],[],[]] : GState Nat)
        (SearchResult.mk true [] 1 0 1 0).moves = some t ∧
      (WaterSortGame.mk 5 3 4).is_goal_state t = true ∧
      (SearchResult.mk true [] 1 0 1 0).depth =
        (SearchResult.mk true [] 1 0 1 0).moves.length) ∧
    (∃ t, replay (WaterSortGame.mk 5 3 4)
        ([[0,0,0,0],[1,1,1,1],[2,2,2,2],[],[]] : GState Nat)
        (SearchResult.mk true [] 1 0 1 0).moves = some t ∧
      (WaterSortGame.mk 5 3 4).is_goal_state t = true ∧
      (SearchResult.mk true [] 1 0 1 0).depth =
        (SearchResult.mk true [] 1 0 1 0).moves.length) ∧
    (∃ t, replay (WaterSortGame.mk 5 3 4)
        ([[0,0,0,0],[1,1,1,1],[2,2,2,2],[],[]] : GState Nat)
        (SearchResult.mk true [] 1 0 1 0).moves = some t ∧
      (WaterSortGame.mk 5 3 4).is_goal_state t = true ∧
      (SearchResult.mk true [] 1 0 1 0).depth =
        (SearchResult.mk true [] 1 0 1 0).moves.length) :=
  ⟨(claim_C3 (WaterSortGame.mk 5 3 4) entropy_heuristic
      ([[0,0,0,0],[1,1,1,1],[2,2,2,2],[],[]] : GState Nat) (by decide)).1
    10 ⟨true, [], 1, 0, 1, 0⟩
    { frontier := [[[0,0,0,0],[1,1,1,1],[2,2,2,2],[],[]]]
      parents := [([[0,0,0,0],[1,1,1,1],[2,2,2,2],[],[]], none)]
      moves_taken := [([[0,0,0,0],[1,1,1,1],[2,2,2,2],[],[]], none)]
      visited := [[[0,0,0,0],[1,1,1,1],[2,2,2,2],[],[]]]
      visited_history := [[[0,0,0,0],[1,1,1,1],[2,2,2,2],[],[]]]
      expanded := 0
      max_frontier := 1 } (by rfl) (by rfl),
   (claim_C3 (WaterSortGame.mk 5 3 4) entropy_heuristic
      ([[0,0,0,0],[1,1,1,1],[2,2,2,2],[],[]] : GState Nat) (by decide)).2.1
    10 none ⟨true, [], 1, 0, 1, 0⟩
    { visited := [[[0,0,0,0],[1,1,1,1],[2,2,2,2],[],[]]]
      visited_history := [[[0,0,0,0],[1,1,1,1],[2,2,2,2],[],[]]]
      parents := [([[0,0,0,0],[1,1,1,1],[2,2,2,2],[],[]], none)]
      moves_taken := [([[0,0,0,0],[1,1,1,1],[2,2,2,2],[],[]], none)]
      expanded := 0
      max_frontier := 1
      success_state := some [[0,0,0,0],[1,1,1,1],[2,2,2,2],[],[]] } (by rfl) (by rfl),
   (claim_C3 (WaterSortGame.mk 5 3 4) entropy_heuristic
      ([[0,0,0,0],[1,1,1,1],[2,2,2,2],[],[]] : GState Nat) (by decide)).2.2.1
    10 ⟨true, [], 1, 0, 1, 0⟩
    { open_heap := []
      g_cost := [([[0,0,0,0],[1,1,1,1],[2,2,2,2],[],[]], 0)]
      parents := [([[0,0,0,0],[1,1,1,1],[2,2,2,2],[],[]], none)]
      moves_taken := [([[0,0,0,0],[1,1,1,1],[2,2,2,2],[],[]], none)]
      visited := [[[0,0,0,0],[1,1,1,1],[2,2,2,2],[],[]]]
      expanded := 0
      entry_counter := 0
      max_frontier := 1 } (by rfl) (by rfl),
   (claim_C3 (WaterSortGame.mk 5 3 4) entropy_heuristic
      ([[0,0,0,0],[1,1,1,1],[2,2,2,2],[],[]] : GState Nat) (by decide)).2.2.2
    5 10 200 ⟨true, [], 1, 0, 1, 0⟩
    { expanded := 0
      max_frontier := 1
      global_visited := [[[0,0,0,0],[1,1,1,1],[2,2,2,2],[],[]]]
      visited := [[[0,0,0,0],[1,1,1,1],[2,2,2,2],[],[]]]
      path := [] } (by rfl) (by rfl)⟩

/-- The bookkeeping maps determine at most one chain per state. -/
theorem chain_unique {P : List (GState α × Option (GState α))}
    {M : List (GState α × Option Move)} {x : GState α} {l1 : List Move}
    {ns1 : List (GState α)} (h1 : Chain P M x l1 ns1) :
    ∀ l2 ns2, Chain P M x l2 ns2 → l1 = l2 ∧ ns1 = ns2 := by
  induction h1 with
  | base x hx =>
    intro l2 ns2 h2
    cases h2 with
    | base => exact ⟨rfl, rfl⟩
    | step _ p m l ns hm hp hc =>
      rw [hx] at hm
      injection hm with hm
      exact absurd hm (by simp)
  | step x p m l ns hm hp hc ih =>
    intro l2 ns2 h2
    cases h2 with
    | base _ hx =>
      rw [hx] at hm
      injection hm with hm
      exact absurd hm (by simp)
    | step _ p2 m2 l3 ns3 hm2 hp2 hc2 =>
      rw [hm] at hm2
      injection hm2 with hm2
      injection hm2 with hm2
      rw [hp] at hp2
      injection hp2 with hp2
      injection hp2 with hp2
      subst hm2
      subst hp2
      obtain ⟨he1, he2⟩ := ih l3 ns3 hc2
      rw [he1, he2]
      exact ⟨rfl, rfl⟩

/-- Any move `apply_move` accepts is one that `get_valid_moves` enumerates. -/
theorem apply_ok_mem {g : WaterSortGame} {s : GState α} {m : Move} {s2 : GState α}
    {p : Nat} (h : g.apply_move s m = .ok (s2, p)) : m ∈ g.get_valid_moves s := by
  obtain ⟨c, ⟨h1, h2⟩, h3, hC, hD, hE, -, -⟩ := apply_move_eq_ok.mp h
  refine mem_get_valid_moves.mpr ⟨h1, h2, h3, ?_, by omega, ?_⟩
  · intro hnil
    rw [hnil] at hC
    simp at hC
  · cases hE with
    | inl he => exact Or.inl he
    | inr he => exact Or.inr (by rw [he, hC])

/-- Walking a path backwards from outside the visited set reaches a frontier
state (or the state currently being expanded) after a strict prefix: every
intermediate fully-processed state would have forced the next state on the
path into the visited set. -/
theorem bfs_walkback {g : WaterSortGame} {init : GState α} {V F : List (GState α)}
    {cur : GState α} (hinit : init ∈ V)
    (hclosed : ∀ u ∈ V, u ∉ F → u ≠ cur →
      ∀ m y p, g.apply_move u m = .ok (y, p) → y ∈ V) :
    ∀ (l : List Move) (t : GState α), replay g init l = some t → t ∉ V →
      ∃ z l1 l2, l = l1 ++ l2 ∧ l2 ≠ [] ∧ replay g init l1 = some z ∧ z ∈ V ∧
        (z ∈ F ∨ z = cur) := by
  intro l
  induction l using List.reverseRecOn with
  | nil =>
    intro t ht htV
    unfold replay at ht
    injection ht with ht
    rw [← ht] at htV
    exact absurd hinit htV
  | append_singleton l2 m ih =>
    intro t ht htV
    rw [replay_append] at ht
    cases hrep : replay g init l2 with
    | none => rw [hrep] at ht; simp at ht
    | some u =>
      rw [hrep, Option.some_bind] at ht
      unfold replay at ht
      cases happ : g.apply_move u m with
      | error e => rw [happ] at ht; simp at ht
      | ok x =>
        rw [happ] at ht
        obtain ⟨y, p⟩ := x
        dsimp only at ht
        unfold replay at ht
        injection ht with ht
        subst ht
        by_cases huV : u ∈ V
        · by_cases huF : u ∈ F ∨ u = cur
          · exact ⟨u, l2, [m], rfl, by simp, hrep, huV, huF⟩
          · push_neg at huF
            exact absurd (hclosed u huV (fun hin => huF.1 hin) huF.2 m _ p happ) htV
        · obtain ⟨z, l3, l4, hsplit, hne, hrep2, hzV, hzF⟩ := ih u hrep huV
          exact ⟨z, l3, l4 ++ [m], by rw [hsplit, List.append_assoc], by simp,
            hrep2, hzV, hzF⟩

/-- A state discovered fresh from the head of the frontier is at shortest
distance one more than the head's chain: any other path to it would pass
through a frontier state of chain length at least `h` with a strict suffix
remaining, or through a fully-processed state that would already have
produced it. -/
theorem bfs_new_opt {g : WaterSortGame} {init : GState α}
    {P : List (GState α × Option (GState α))} {M : List (GState α × Option Move)}
    {V F : List (GState α)} {cur next : GState α} {h : Nat} {m : Move} {p : Nat}
    (hinit : init ∈ V)
    (hrec : ∀ x ∈ V, ∃ lx nsx, Chain P M x lx nsx)
    (hopt : ∀ x ∈ V, ∀ lx nsx, Chain P M x lx nsx →
      ∀ l2, replay g init l2 = some x → lx.length ≤ l2.length)
    (hlow : ∀ z ∈ F, ∀ lz nsz, Chain P M z lz nsz → h ≤ lz.length)
    (hcurV : cur ∈ V)
    (hcur : ∃ nsc lc, Chain P M cur lc nsc ∧ lc.length = h)
    (hclosed : ∀ u ∈ V, u ∉ F → u ≠ cur →
      ∀ m2 y p2, g.apply_move u m2 = .ok (y, p2) → y ∈ V)
    (hfresh : next ∉ V) (happ : g.apply_move cur m = .ok (next, p)) :
    ∀ l2, replay g init l2 = some next → h + 1 ≤ l2.length := by
  intro l2 hl2
  rcases List.eq_nil_or_concat l2 with hnil | ⟨l3, m2, hsplit⟩
  · rw [hnil] at hl2
    unfold replay at hl2
    injection hl2 with hl2
    rw [hl2] at hinit
    exact absurd hinit hfresh
  · rw [List.concat_eq_append] at hsplit
    subst hsplit
    rw [replay_append] at hl2
    cases hrep : replay g init l3 with
    | none => rw [hrep] at hl2; simp at hl2
    | some u =>
      rw [hrep, Option.some_bind] at hl2
      unfold replay at hl2
      cases happ2 : g.apply_move u m2 with
      | error e => rw [happ2] at hl2; simp at hl2
      | ok x =>
        rw [happ2] at hl2
        obtain ⟨y, p2⟩ := x
        dsimp only at hl2
        unfold replay at hl2
        injection hl2 with hl2
        have hyn : y = next := hl2
        rw [hyn] at happ2
        rw [List.length_append, List.length_singleton]
        by_cases huV : u ∈ V
        · by_cases hucur : u = cur
          · subst hucur
            obtain ⟨nsc, lc, hc, hlen⟩ := hcur
            have := hopt u huV lc nsc hc l3 hrep
            omega
          · by_cases huF : u ∈ F
            · obtain ⟨lu, nsu, hcu⟩ := hrec u huV
              have h1 := hopt u huV lu nsu hcu l3 hrep
              have h2 := hlow u huF lu nsu hcu
              omega
            · exact absurd (hclosed u huV huF hucur m2 next p2 happ2) hfresh
        · obtain ⟨z, l4, l5, hsplit2, hne, hrep2, hzV, hzF⟩ :=
            bfs_walkback hinit hclosed l3 u hrep huV
          obtain ⟨lz, nsz, hcz⟩ := hrec z hzV
          have h1 := hopt z hzV lz nsz hcz l4 hrep2
          have h2 : h ≤ lz.length := by
            cases hzF with
            | inl hzF => exact hlow z hzF lz nsz hcz
            | inr hzF =>
              obtain ⟨nsc, lc, hc, hlen⟩ := hcur
              rw [hzF] at hcz
              obtain ⟨he1, -⟩ := chain_unique hc lz nsz hcz
              rw [← he1]
              omega
          have h3 : l4.length + 1 ≤ l3.length := by
            rw [hsplit2, List.length_append]
            have : 1 ≤ l5.length := by
              cases l5 with
              | nil => exact absurd rfl hne
              | cons a as => simp
            omega
          omega

/-- One pass of the `bfs` expansion loop preserves the optimality invariant:
fresh successors of the head state `cur` (whose chain has length `h`) are
recorded with shortest chains of length `h + 1` and appended to the frontier,
which stays sorted and within the band `[h, h + 1]`; afterwards every
processed move's successor is visited. -/
theorem bfsExpand_opt {g : WaterSortGame} {init cur : GState α} {h : Nat}
    {lc : List Move} {nsc : List (GState α)} :
    ∀ (moves : List Move) (st : BfsSt α) st2,
      bfsExpand g cur moves st = some st2 →
      (∀ x ∈ st.frontier, x ∈ st.visited) →
      init ∈ st.visited →
      cur ∈ st.visited →
      Chain st.parents st.moves_taken cur lc nsc →
      lc.length = h →
      (∀ n ∈ nsc, n ∈ st.visited) →
      (∀ x ∈ st.visited, GoodRec g init st.parents st.moves_taken st.visited x) →
      (∀ x ∈ st.visited, ∀ lx nsx, Chain st.parents st.moves_taken x lx nsx →
        ∀ l2, replay g init l2 = some x → lx.length ≤ l2.length) →
      (∀ u ∈ st.visited, u ∉ st.frontier → u ≠ cur → g.is_goal_state u = false ∧
        ∀ m2 y p2, g.apply_move u m2 = .ok (y, p2) → y ∈ st.visited) →
      (∀ z ∈ st.frontier, ∀ lz nsz, Chain st.parents st.moves_taken z lz nsz →
        h ≤ lz.length ∧ lz.length ≤ h + 1) →
      List.Pairwise (fun a b => ∀ la nsa lb nsb,
        Chain st.parents st.moves_taken a la nsa →
        Chain st.parents st.moves_taken b lb nsb → la.length ≤ lb.length)
        st.frontier →
      ((∀ x ∈ st2.frontier, x ∈ st2.visited) ∧
       init ∈ st2.visited ∧
       cur ∈ st2.visited ∧
       Chain st2.parents st2.moves_taken cur lc nsc ∧
       (∀ n ∈ nsc, n ∈ st2.visited) ∧
       (∀ x ∈ st2.visited, GoodRec g init st2.parents st2.moves_taken st2.visited x) ∧
       (∀ x ∈ st2.visited, ∀ lx nsx, Chain st2.parents st2.moves_taken x lx nsx →
         ∀ l2, replay g init l2 = some x → lx.length ≤ l2.length) ∧
       (∀ u ∈ st2.visited, u ∉ st2.frontier → u ≠ cur → g.is_goal_state u = false ∧
         ∀ m2 y p2, g.apply_move u m2 = .ok (y, p2) → y ∈ st2.visited) ∧
       (∀ z ∈ st2.frontier, ∀ lz nsz, Chain st2.parents st2.moves_taken z lz nsz →
         h ≤ lz.length ∧ lz.length ≤ h + 1) ∧
       List.Pairwise (fun a b => ∀ la nsa lb nsb,
         Chain st2.parents st2.moves_taken a la nsa →
         Chain st2.parents st2.moves_taken b lb nsb → la.length ≤ lb.length)
         st2.frontier ∧
       (∀ v ∈ st.visited, v ∈ st2.visited) ∧
       (∀ v ∈ st2.visited, v ∈ st.visited ∨ v ∈ st2.frontier) ∧
       (∀ v ∈ st.frontier, v ∈ st2.frontier) ∧
       (∀ m ∈ moves, ∀ y p, g.apply_move cur m = .ok (y, p) → y ∈ st2.visited)) := by
  intro moves
  induction moves with
  | nil =>
    intro st st2 hr h1 h2 h3 h4 h5 h6 h7 h8 h9 h10 h11
    unfold bfsExpand at hr
    injection hr with hr
    subst hr
    exact ⟨h1, h2, h3, h4, h6, h7, h8, h9, h10, h11, fun v hv => hv,
      fun v hv => Or.inl hv, fun v hv => hv, fun m hm => by simp at hm⟩
  | cons m ms ih =>
    intro st st2 hr h1 h2 h3 h4 h5 h6 h7 h8 h9 h10 h11
    unfold bfsExpand at hr
    cases happ : g.apply_move cur m with
    | error e => rw [happ] at hr; simp at hr
    | ok x =>
      rw [happ] at hr
      obtain ⟨next, np⟩ := x
      dsimp only at hr
      by_cases hmem : next ∈ st.visited
      · rw [if_pos hmem] at hr
        obtain ⟨c1, c2, c3, c4, c5, c6, c7, c8, c9, c10, c11, c12, c13, c14⟩ :=
          ih st st2 hr h1 h2 h3 h4 h5 h6 h7 h8 h9 h10 h11
        refine ⟨c1, c2, c3, c4, c5, c6, c7, c8, c9, c10, c11, c12, c13, ?_⟩
        intro m2 hm2 y p hok
        rw [List.mem_cons] at hm2
        cases hm2 with
        | inl hm2 =>
          subst hm2
          rw [happ] at hok
          injection hok with hok
          injection hok with hok1 hok2
          rw [← hok1]
          exact c11 next hmem
        | inr hm2 => exact c14 m2 hm2 y p hok
      · rw [if_neg hmem] at hr
        -- the mid-step update record
        have hfresh_nsc : next ∉ nsc := fun hin => hmem (h6 next hin)
        have hchain2 : Chain ((next, some cur) :: st.parents)
            ((next, some m) :: st.moves_taken) cur lc nsc :=
          chain_cons h4 next (some cur) (some m) hfresh_nsc
        have hchain_next : Chain ((next, some cur) :: st.parents)
            ((next, some m) :: st.moves_taken) next (lc ++ [m]) (nsc ++ [next]) := by
          refine Chain.step next cur m lc nsc (lookup_cons_self _ _ _)
            (lookup_cons_self _ _ _) hchain2
        -- generic transfer of old chains into the extended maps
        have htrans : ∀ x ∈ st.visited, ∀ lx nsx,
            Chain ((next, some cur) :: st.parents)
              ((next, some m) :: st.moves_taken) x lx nsx →
            ∃ nsx0, Chain st.parents st.moves_taken x lx nsx0 := by
          intro x hxV lx nsx hcx
          obtain ⟨ox, oxns, hox, -, -, hoxns⟩ := h7 x hxV
          have hox2 : Chain ((next, some cur) :: st.parents)
              ((next, some m) :: st.moves_taken) x ox oxns :=
            chain_cons hox next (some cur) (some m)
              (fun hin => hmem (hoxns next hin))
          obtain ⟨he1, he2⟩ := chain_unique hox2 lx nsx hcx
          rw [← he1]
          exact ⟨oxns, hox⟩
        have hnext_opt : ∀ l2, replay g init l2 = some next → h + 1 ≤ l2.length := by
          refine bfs_new_opt h2 ?_ h8 ?_ h3 ⟨nsc, lc, h4, h5⟩
            (fun u hu hf hne => (h9 u hu hf hne).2) hmem happ
          · intro x hxV
            obtain ⟨ox, oxns, hox, -, -, -⟩ := h7 x hxV
            exact ⟨ox, oxns, hox⟩
          · intro z hz lz nsz hcz
            exact (h10 z hz lz nsz hcz).1
        have hnext_chain_len : ∀ lx nsx,
            Chain ((next, some cur) :: st.parents)
              ((next, some m) :: st.moves_taken) next lx nsx →
            lx.length = h + 1 := by
          intro lx nsx hcx
          obtain ⟨he1, -⟩ := chain_unique hchain_next lx nsx hcx
          rw [← he1]
          rw [List.length_append, List.length_singleton]
          omega
        have hAddMem : ∀ v ∈ st.visited, v ∈ setAdd st.visited next := by
          intro v hv
          unfold setAdd
          split
          · exact hv
          · exact List.mem_cons_of_mem _ hv
        have hNextMem : next ∈ setAdd st.visited next := by
          rw [setAdd_of_not_mem hmem]
          exact List.mem_cons_self _ _
        have hAddCases : ∀ v ∈ setAdd st.visited next, v ∈ st.visited ∨ v = next := by
          intro v hv
          rw [setAdd_of_not_mem hmem, List.mem_cons] at hv
          cases hv with
          | inl hv => exact Or.inr hv
          | inr hv => exact Or.inl hv
        obtain ⟨c1, c2, c3, c4, c5, c6, c7, c8, c9, c10, c11, c12, c13, c14⟩ :=
          ih _ st2 hr
            (by
              intro x hx
              dsimp only at hx ⊢
              rw [List.mem_append, List.mem_singleton] at hx
              cases hx with
              | inl hx => exact hAddMem _ (h1 x hx)
              | inr hx => rw [hx]; exact hNextMem)
            (hAddMem _ h2) (hAddMem _ h3) hchain2 h5
            (fun n hn => hAddMem _ (h6 n hn))
            (by
              intro x hx
              dsimp only at hx ⊢
              rcases hAddCases x hx with hxV | hxn
              · exact goodRec_extend (h7 x hxV) hmem (some cur) (some m) _ hAddMem
              · rw [hxn]
                exact goodRec_new (h7 cur h3) hmem happ)
            (by
              intro x hx lx nsx hcx l2 hl2
              dsimp only at hx hcx
              rcases hAddCases x hx with hxV | hxn
              · obtain ⟨nsx0, hcx0⟩ := htrans x hxV lx nsx hcx
                exact h8 x hxV lx nsx0 hcx0 l2 hl2
              · subst hxn
                rw [hnext_chain_len lx nsx hcx]
                exact hnext_opt l2 hl2)
            (by
              intro u hu hufr hucur
              dsimp only at hu hufr ⊢
              rcases hAddCases u hu with huV | hun
              · have hufr2 : u ∉ st.frontier := fun hin =>
                  hufr (List.mem_append_left _ hin)
                obtain ⟨hng, hcl⟩ := h9 u huV hufr2 hucur
                exact ⟨hng, fun m2 y p2 hok => hAddMem _ (hcl m2 y p2 hok)⟩
              · rw [hun] at hufr
                exact absurd (List.mem_append_right _ (List.mem_singleton_self next)) hufr)
            (by
              intro z hz lz nsz hcz
              dsimp only at hz hcz
              rw [List.mem_append, List.mem_singleton] at hz
              cases hz with
              | inl hz =>
                obtain ⟨nsz0, hcz0⟩ := htrans z (h1 z hz) lz nsz hcz
                exact h10 z hz lz nsz0 hcz0
              | inr hz =>
                subst hz
                rw [hnext_chain_len lz nsz hcz]
                omega)
            (by
              dsimp only
              rw [List.pairwise_append]
              refine ⟨?_, List.pairwise_singleton _ _, ?_⟩
              · refine h11.imp_of_mem ?_
                intro a b ha hb hab la nsa lb nsb hca hcb
                obtain ⟨nsa0, hca0⟩ := htrans a (h1 a ha) la nsa hca
                obtain ⟨nsb0, hcb0⟩ := htrans b (h1 b hb) lb nsb hcb
                exact hab la nsa0 lb nsb0 hca0 hcb0
              · intro a ha b hb la nsa lb nsb hca hcb
                rw [List.mem_singleton] at hb
                subst hb
                obtain ⟨nsa0, hca0⟩ := htrans a (h1 a ha) la nsa hca
                have := (h10 a ha la nsa0 hca0).2
                rw [hnext_chain_len lb nsb hcb]
                omega)
        refine ⟨c1, c2, c3, c4, c5, c6, c7, c8, c9, c10,
          fun v hv => c11 v (hAddMem v hv), ?_, ?_, ?_⟩
        · intro v hv
          rcases c12 v hv with hv2 | hv2
          · rcases hAddCases v hv2 with hv3 | hv3
            · exact Or.inl hv3
            · refine Or.inr ?_
              rw [hv3]
              refine c13 next ?_
              dsimp only
              exact List.mem_append_right _ (List.mem_singleton_self next)
          · exact Or.inr hv2
        · intro v hv
          refine c13 v ?_
          dsimp only
          exact List.mem_append_left _ hv
        · intro m2 hm2 y p hok
          rw [List.mem_cons] at hm2
          cases hm2 with
          | inl hm2 =>
            subst hm2
            rw [happ] at hok
            injection hok with hok
            injection hok with hok1 hok2
            rw [← hok1]
            exact c11 next hNextMem
          | inr hm2 => exact c14 m2 hm2 y p hok

/-- While the optimality invariant holds, a successful `bfsLoop` run returns a
move list no longer than any move sequence reaching a goal from the initial
state. -/
theorem bfsLoop_opt {g : WaterSortGame} {init : GState α} :
    ∀ (fuel : Nat) (st : BfsSt α) r st2,
      bfsLoop g fuel st = some (r, st2) →
      BfsOpt g init st →
      r.success = true →
      ∀ (l : List Move) (t : GState α), replay g init l = some t →
        g.is_goal_state t = true → r.moves.length ≤ l.length := by
  intro fuel
  induction fuel with
  | zero => intro st r st2 hr hinv hs; unfold bfsLoop at hr; simp at hr
  | succ fuel ih =>
    intro st r st2 hr hinv hs
    obtain ⟨H1, H2, H3, H4, H5, H6, H7⟩ := hinv
    unfold bfsLoop at hr
    cases hf : st.frontier with
    | nil =>
      rw [hf] at hr
      injection hr with hr
      injection hr with h1 h2
      rw [← h1] at hs
      simp at hs
    | cons current rest =>
      rw [hf] at hr
      dsimp only at hr
      have hcurV : current ∈ st.visited :=
        H1 current (by rw [hf]; exact List.mem_cons_self _ _)
      obtain ⟨lc, nsc, hc, hrepc, hlenc, hnsc⟩ := H3 current hcurV
      split at hr
      · rename_i hgoal
        have hrecon := reconstruct_of_chain hc (st.parents.length + 1) [] (by omega)
        simp only [List.nil_append, List.reverse_reverse] at hrecon
        rw [show ({ st with frontier := rest, expanded := st.expanded + 1 } :
          BfsSt α).parents = st.parents from rfl] at hr
        rw [show ({ st with frontier := rest, expanded := st.expanded + 1 } :
          BfsSt α).moves_taken = st.moves_taken from rfl] at hr
        rw [hrecon] at hr
        dsimp only at hr
        injection hr with hr
        injection hr with h1 h2
        intro l t hl ht
        rw [← h1]
        dsimp only
        by_cases htV : t ∈ st.visited
        · by_cases htF : t ∈ st.frontier
          · rw [hf, List.mem_cons] at htF
            cases htF with
            | inl htF =>
              subst htF
              exact H4 t htV lc nsc hc l hl
            | inr htF =>
              obtain ⟨lt, nst, hct, -, -, -⟩ := H3 t htV
              have hle1 := H4 t htV lt nst hct l hl
              rw [hf] at H5
              have hle2 := (List.pairwise_cons.mp H5).1 t htF lc nsc lt nst hc hct
              omega
          · have := (H7 t htV htF).1
            rw [this] at ht
            simp at ht
        · obtain ⟨z, l1, l2, hsplit, hne, hrep1, hzV, hzF⟩ :=
            bfs_walkback H2 (fun u hu hf2 _ => (H7 u hu hf2).2) l t hl htV
          have hzF2 : z ∈ st.frontier := by
            cases hzF with
            | inl hzf => exact hzf
            | inr hzf => rw [hzf, hf]; exact List.mem_cons_self _ _
          obtain ⟨lz, nsz, hcz, -, -, -⟩ := H3 z hzV
          have hle1 := H4 z hzV lz nsz hcz l1 hrep1
          have hle2 : lc.length ≤ lz.length := by
            rw [hf, List.mem_cons] at hzF2
            cases hzF2 with
            | inl hzf =>
              rw [hzf] at hcz
              obtain ⟨he1, -⟩ := chain_unique hc lz nsz hcz
              rw [he1]
            | inr hzf =>
              rw [hf] at H5
              exact (List.pairwise_cons.mp H5).1 z hzf lc nsc lz nsz hc hcz
          have hl2pos : 0 < l2.length := List.length_pos.mpr hne
          rw [hsplit, List.length_append]
          omega
      · rename_i hgoal
        rw [Bool.not_eq_true] at hgoal
        split at hr
        · simp at hr
        · rename_i st3 hexp
          rw [hf] at H5 H6
          have h5c := List.pairwise_cons.mp H5
          obtain ⟨c1, c2, c3, c4, c5, c6, c7, c8, c9, c10, c11, c12, c13, c14⟩ :=
            bfsExpand_opt (g.get_valid_moves current) _ st3 hexp
              (fun x hx => H1 x (by rw [hf]; exact List.mem_cons_of_mem _ hx))
              H2 hcurV hc rfl hnsc H3 H4
              (by
                intro u hu hufr hucur
                refine H7 u hu ?_
                rw [hf, List.mem_cons]
                intro hmem2
                cases hmem2 with
                | inl hmem2 => exact hucur hmem2
                | inr hmem2 => exact hufr hmem2)
              (by
                intro z hz lz nsz hcz
                refine ⟨h5c.1 z hz lc nsc lz nsz hc hcz, ?_⟩
                exact H6 current (List.mem_cons_self _ _) z
                  (List.mem_cons_of_mem _ hz) lc nsc lz nsz hc hcz)
              h5c.2
          refine ih _ r st2 hr ⟨c1, c2, c6, c7, c10, ?_, ?_⟩ hs
          · intro a ha b hb la nsa lb nsb hca hcb
            have h1a := c9 a ha la nsa hca
            have h1b := c9 b hb lb nsb hcb
            omega
          · intro u hu hufr
            by_cases hucur : u = current
            · subst hucur
              refine ⟨hgoal, ?_⟩
              intro m y p hok
              exact c14 m (apply_ok_mem hok) y p hok
            · exact c8 u hu hufr hucur

/-- The bookkeeping `bfs` starts from satisfies the optimality invariant. -/
theorem bfsInit_opt {g : WaterSortGame} {init : GState α} :
    BfsOpt g init (bfsInit init) := by
  have hbase : Chain ((bfsInit init : BfsSt α).parents)
      ((bfsInit init : BfsSt α).moves_taken) init [] [init] :=
    Chain.base init (lookup_cons_self [] init none)
  have huniq : ∀ x ∈ (bfsInit init : BfsSt α).visited, ∀ lx nsx,
      Chain (bfsInit init : BfsSt α).parents
        (bfsInit init : BfsSt α).moves_taken x lx nsx → lx = [] := by
    intro x hx lx nsx hcx
    rw [show (bfsInit init : BfsSt α).visited = [init] from rfl,
      List.mem_singleton] at hx
    rw [hx] at hcx
    exact (chain_unique hbase lx nsx hcx).1.symm
  refine ⟨fun x hx => hx, List.mem_singleton_self init, ?_, ?_, ?_, ?_, ?_⟩
  · intro x hx
    rw [show (bfsInit init : BfsSt α).visited = [init] from rfl,
      List.mem_singleton] at hx
    rw [hx]
    refine ⟨[], [init], hbase, rfl, by simp [bfsInit], ?_⟩
    intro n hn
    rw [List.mem_singleton] at hn
    rw [hn]
    exact List.mem_singleton_self init
  · intro x hx lx nsx hcx l2 hl2
    rw [huniq x hx lx nsx hcx]
    simp
  · exact List.pairwise_singleton _ _
  · intro a ha b hb la nsa lb nsb hca hcb
    rw [huniq a ha la nsa hca, huniq b hb lb nsb hcb]
    simp
  · intro u hu hufr
    exact absurd hu hufr

/-- `bfs` is optimal: a successful run returns no more moves than any move
sequence reaching a goal from the initial state. -/
theorem bfs_opt {g : WaterSortGame} {init : GState α} {fuel : Nat}
    {r : SearchResult} {st : BfsSt α} (hr : bfs g fuel init = some (r, st))
    (hs : r.success = true) :
    ∀ (l : List Move) (t : GState α), replay g init l = some t →
      g.is_goal_state t = true → r.moves.length ≤ l.length := by
  unfold bfs at hr
  split at hr
  · injection hr with hr
    injection hr with h1 h2
    intro l t hl ht
    rw [← h1]
    simp
  · exact bfsLoop_opt fuel (bfsInit init) r st hr bfsInit_opt hs

/-- The bookkeeping `a_star` starts from satisfies its local invariant. -/
theorem aStarInit_inv {g : WaterSortGame} {heuristic : GState α → Int}
    {s : GState α} : AStarInv g s (aStarInit heuristic s) := by
  refine ⟨?_, ?_, ?_, ?_⟩
  · intro y gy hy
    unfold aStarInit at hy
    dsimp only at hy
    by_cases hys : y = s
    · subst hys
      rw [lookup_cons_self] at hy
      injection hy with hy
      exact Or.inl ⟨rfl, hy.symm, by unfold aStarInit; exact lookup_cons_self _ _ _⟩
    · rw [lookup_cons_ne _ _ _ _ hys] at hy
      unfold lookup at hy
      simp at hy
  · unfold aStarInit
    exact lookup_cons_self _ _ _
  · intro e he
    unfold aStarInit at he
    dsimp only at he
    rw [List.mem_singleton] at he
    rw [he]
    exact ⟨0, by unfold aStarInit; exact lookup_cons_self _ _ _⟩
  · rfl

/-- C2: on any initial state where both runs succeed, the move list returned
by `bfs` is no longer than the move list returned by `dfs`, `a_star`, or
`ida_star` on the same initial state — `bfs` returns a fewest-moves solution
under unit edge cost. -/
theorem claim_C2 (g : WaterSortGame) (heuristic : GState α → Int) (s : GState α)
    (fuelB : Nat) (rB : SearchResult) (stB : BfsSt α)
    (hB : bfs g fuelB s = some (rB, stB)) (hBs : rB.success = true) :
    (∀ fuelD depth_limit rD stD, dfs g fuelD s depth_limit = some (rD, stD) →
      rD.success = true → rB.moves.length ≤ rD.moves.length) ∧
    (∀ fuelA rA stA, a_star g heuristic fuelA s = some (rA, stA) →
      rA.success = true → rB.moves.length ≤ rA.moves.length) ∧
    (∀ outerFuel innerFuel max_depth rI stI,
      ida_star g heuristic outerFuel innerFuel s max_depth = some (rI, stI) →
      rI.success = true → rB.moves.length ≤ rI.moves.length) := by
  refine ⟨?_, ?_, ?_⟩
  · intro fuelD depth_limit rD stD hr hs
    obtain ⟨t, hrep, hgoal, -⟩ := dfs_sound hr hs
    exact bfs_opt hB hBs rD.moves t hrep hgoal
  · intro fuelA rA stA hr hs
    unfold a_star at hr
    obtain ⟨t, hrep, hgoal, -⟩ := aStarLoop_sound fuelA _ rA stA hr aStarInit_inv hs
    exact bfs_opt hB hBs rA.moves t hrep hgoal
  · intro outerFuel innerFuel max_depth rI stI hr hs
    unfold ida_star at hr
    obtain ⟨t, hrep, hgoal, -⟩ :=
      idaLoop_sound outerFuel innerFuel s (heuristic s) _ rI stI hr rfl hs
    exact bfs_opt hB hBs rI.moves t hrep hgoal

/-- Witness for C2: on an already-solved valid state, `bfs` succeeds with an
empty move list, which is no longer than the (empty) move lists returned by
the successful `dfs`, `a_star` and `ida_star` runs on the same state. -/
theorem claim_C2_witness :
    ((⟨true, [], 1, 0, 1, 0⟩ : SearchResult).moves.length ≤
      (⟨true, [], 1, 0, 1, 0⟩ : SearchResult).moves.length) ∧
    ((⟨true, [], 1, 0, 1, 0⟩ : SearchResult).moves.length ≤
      (⟨true, [], 1, 0, 1, 0⟩ : SearchResult).moves.length) ∧
    ((⟨true, [], 1, 0, 1, 0⟩ : SearchResult).moves.length ≤
      (⟨true, [], 1, 0, 1, 0⟩ : SearchResult).moves.length) :=
  ⟨(claim_C2 (WaterSortGame.mk 5 3 4) entropy_heuristic
      ([[0,0,0,0],[1,1,1,1],[2,2,2,2],[],[]] : GState Nat) 10
      ⟨true, [], 1, 0, 1, 0⟩
      (bfsInit [[0,0,0,0],[1,1,1,1],[2,2,2,2],[],[]])
      (by rfl) (by rfl)).1 10 none ⟨true, [], 1, 0, 1, 0⟩
    { visited := [[[0,0,0,0],[1,1,1,1],[2,2,2,2],[],[]]]
      visited_history := [[[0,0,0,0],[1,1,1,1],[2,2,2,2],[],[]]]
      parents := [([[0,0,0,0],[1,1,1,1],[2,2,2,2],[],[]], none)]
      moves_taken := [([[0,0,0,0],[1,1,1,1],[2,2,2,2],[],[]], none)]
      expanded := 0
      max_frontier := 1
      success_state := some [[0,0,0,0],[1,1,1,1],[2,2,2,2],[],[]] }
    (by rfl) (by rfl),
   (claim_C2 (WaterSortGame.mk 5 3 4) entropy_heuristic
      ([[0,0,0,0],[1,1,1,1],[2,2,2,2],[],[]] : GState Nat) 10
      ⟨true, [], 1, 0, 1, 0⟩
      (bfsInit [[0,0,0,0],[1,1,1,1],[2,2,2,2],[],[]])
      (by rfl) (by rfl)).2.1 10 ⟨true, [], 1, 0, 1, 0⟩
    { open_heap := []
      g_cost := [([[0,0,0,0],[1,1,1,1],[2,2,2,2],[],[]], 0)]
      parents := [([[0,0,0,0],[1,1,1,1],[2,2,2,2],[],[]], none)]
      moves_taken := [([[0,0,0,0],[1,1,1,1],[2,2,2,2],[],[]], none)]
      visited := [[[0,0,0,0],[1,1,1,1],[2,2,2,2],[],[]]]
      expanded := 0
      entry_counter := 0
      max_frontier := 1 }
    (by rfl) (by rfl),
   (claim_C2 (WaterSortGame.mk 5 3 4) entropy_heuristic
      ([[0,0,0,0],[1,1,1,1],[2,2,2,2],[],[]] : GState Nat) 10
      ⟨true, [], 1, 0, 1, 0⟩
      (bfsInit [[0,0,0,0],[1,1,1,1],[2,2,2,2],[],[]])
      (by rfl) (by rfl)).2.2 5 10 200 ⟨true, [], 1, 0, 1, 0⟩
    { expanded := 0
      max_frontier := 1
      global_visited := [[[0,0,0,0],[1,1,1,1],[2,2,2,2],[],[]]]
      visited := [[[0,0,0,0],[1,1,1,1],[2,2,2,2],[],[]]]
      path := [] }
    (by rfl) (by rfl)⟩
